import Mathlib

/-!
# myGoCache: the LRU store (`lru_cache/lru.go`)

A shallow embedding of the eviction-ordered store and proofs of its contract.

Modelling conventions.

* A Go `string` key is a Lean `String`; `len(key)` is its number of bytes, `String.utf8ByteSize`.
* `Value` is the Go interface `Value { Len() int }`: `Len()` is an integer of any sign. The
  counter `nBytes` is an `int64`: every conversion `int64(x)` and every `+`, `-`, `+=`, `-=` on
  `int64` is followed by the reduction `int64` into the range from -2^63 to 2^63 - 1.
* `container/list` is a Lean list of elements, front first. A `*list.Element` is an element
  identifier (`Element.id`), allocated from the counter `Cache.nextId`; the Go map
  `map[string]*list.Element` is an association list from keys to element identifiers.
* The callback `OnEvicted` is external code: the store records whether it is set and logs
  every invocation (`Cache.calls`) together with the keys the store held at that moment.
* The `for` loop of `Add` need not terminate, so it takes fuel: the number of times its body
  may run. `none` means the fuel ran out.
-/

namespace LruCache

/-- The value of an `int64` expression: the integer reduced modulo 2^64 into the range from
-2^63 to 2^63 - 1. It is the conversion `int64(x)` and the wrap-around of `int64` arithmetic. -/
def int64 (x : Int) : Int :=
  (x + 9223372036854775808) % 18446744073709551616 - 9223372036854775808

/-- Value: the Go interface of cache values; `Len()` returns an `int`, which an implementation
may make negative. -/
class Value (V : Type) where
  /-- Len: the method `Len() int`. -/
  Len : V → Int

/-- The entry type: a key-value pair, the payload of a list element. -/
structure entry (V : Type) where
  key : String
  value : V
deriving DecidableEq

/-- Element: a node of `container/list`; `id` is the identity of the `*list.Element` pointer,
`Value` the `*entry` it carries. -/
structure Element (V : Type) where
  id : Nat
  Value : entry V
deriving DecidableEq

/-- EvictCall: one recorded invocation of `OnEvicted(key, value)`, with the keys of the recency
list and of the index at the moment of the call. -/
structure EvictCall (V : Type) where
  key : String
  value : V
  listKeys : List String
  indexKeys : List String
deriving DecidableEq

/-- Cache: the store. `maxBytes` and `nBytes` are the `int64` fields: `maxBytes` is kept as
`New` receives it, and every value assigned to `nBytes` is reduced by `int64`. `ll` is the
recency list (front first), `cache` the index from key to element, `OnEvicted` tells whether a
callback is set; `nextId` and `calls` are the element allocator and the log of callback
invocations (oldest first). -/
structure Cache (V : Type) where
  maxBytes : Int
  nBytes : Int
  ll : List (Element V)
  cache : List (String × Nat)
  OnEvicted : Bool
  nextId : Nat
  calls : List (EvictCall V)
deriving DecidableEq

section Builtins

/-- Go map read `m[key]`: the bound element identifier, if any. -/
def mapGet : List (String × Nat) → String → Option Nat
  | [], _ => none
  | (k, v) :: m, key => if k = key then some v else mapGet m key

/-- Go builtin `delete(m, key)`. -/
def mapDelete (m : List (String × Nat)) (key : String) : List (String × Nat) :=
  m.filter (fun p => decide (p.1 ≠ key))

/-- Go map write `m[key] = v`. -/
def mapSet (m : List (String × Nat)) (key : String) (v : Nat) : List (String × Nat) :=
  (key, v) :: mapDelete m key

variable {V : Type}

/-- The element a pointer refers to, when it is an element of the list. -/
def deref : List (Element V) → Nat → Option (Element V)
  | [], _ => none
  | e :: l, p => if e.id = p then some e else deref l p

/-- The list without the element `p`. -/
def unlink (l : List (Element V)) (p : Nat) : List (Element V) :=
  l.filter (fun e => decide (e.id ≠ p))

/-- PushFront of `container/list`: a new element at the front. -/
def PushFront (l : List (Element V)) (e : Element V) : List (Element V) :=
  e :: l

/-- MoveToFront of `container/list`: no change when `e` is not an element of the list. -/
def MoveToFront (l : List (Element V)) (p : Nat) : List (Element V) :=
  match deref l p with
  | some e => e :: unlink l p
  | none => l

/-- Remove of `container/list`: the element leaves the list. -/
def Remove (l : List (Element V)) (p : Nat) : List (Element V) :=
  unlink l p

/-- Back of `container/list`: the last element, or nil. -/
def Back (l : List (Element V)) : Option (Element V) :=
  l.getLast?

/-- The assignment `kv.value = value` through the element pointer `p`. -/
def setValue (l : List (Element V)) (p : Nat) (value : V) : List (Element V) :=
  l.map (fun e => if e.id = p then { e with Value := { e.Value with value := value } } else e)

end Builtins

variable {V : Type} [Value V]

/-- The bytes one entry is charged, `len(key) + value.Len()`, as an integer without
wrap-around. -/
def entry.size (kv : entry V) : Int :=
  (kv.key.utf8ByteSize : Int) + Value.Len kv.value

/-- New: the constructor; `onEvicted` tells whether a callback is given. -/
def New (maxBytes : Int) (onEvicted : Bool) : Cache V :=
  { maxBytes := maxBytes, nBytes := 0, ll := [], cache := [], OnEvicted := onEvicted,
    nextId := 0, calls := [] }

/-- RemoveOldest: evict the element at the back of the list, if there is one. -/
def RemoveOldest (c : Cache V) : Cache V :=
  match Back c.ll with
  | some element =>
    let ll := Remove c.ll element.id
    let kv := element.Value
    let cache := mapDelete c.cache kv.key
    let nBytes :=
      int64 (c.nBytes - int64 (int64 (kv.key.utf8ByteSize : Int) + int64 (Value.Len kv.value)))
    let calls :=
      if c.OnEvicted then
        c.calls ++ [⟨kv.key, kv.value, ll.map (fun e => e.Value.key), cache.map Prod.fst⟩]
      else c.calls
    { c with ll := ll, cache := cache, nBytes := nBytes, calls := calls }
  | none => c

/-- The loop `for c.maxBytes != 0 && c.maxBytes < c.nBytes { c.RemoveOldest() }`; `fuel` bounds
the number of times the body runs. -/
def evictLoop : Nat → Cache V → Option (Cache V)
  | fuel, c =>
    if c.maxBytes ≠ 0 ∧ c.maxBytes < c.nBytes then
      match fuel with
      | 0 => none
      | fuel + 1 => evictLoop fuel (RemoveOldest c)
    else some c

/-- The insert-or-update part of `Add`, before the eviction loop. When the index holds a pointer
that is not an element of the list (this never happens, see `Inv`), nothing is changed. -/
def addEntry (c : Cache V) (key : String) (value : V) : Cache V :=
  match mapGet c.cache key with
  | some element =>
    match deref c.ll element with
    | some e =>
      let kv := e.Value
      { c with
        ll := setValue (MoveToFront c.ll element) element value,
        nBytes := int64 (c.nBytes + int64 (int64 (Value.Len value) - int64 (Value.Len kv.value))) }
    | none => c
  | none =>
    let element : Element V := ⟨c.nextId, ⟨key, value⟩⟩
    { c with
      ll := PushFront c.ll element,
      cache := mapSet c.cache key element.id,
      nBytes := int64 (c.nBytes + int64 (int64 (key.utf8ByteSize : Int) + int64 (Value.Len value))),
      nextId := c.nextId + 1 }

/-- Add: insert or update, then evict while over budget. -/
def Add (fuel : Nat) (c : Cache V) (key : String) (value : V) : Option (Cache V) :=
  evictLoop fuel (addEntry c key value)

/-- Get: the new state and the result `(value, ok)` as an option. -/
def Get (c : Cache V) (key : String) : Cache V × Option V :=
  match mapGet c.cache key with
  | some element =>
    match deref c.ll element with
    | some e => ({ c with ll := MoveToFront c.ll element }, some e.Value.value)
    | none => (c, none)
  | none => (c, none)

/-- Len: the number of entries. -/
def Len (c : Cache V) : Nat :=
  c.ll.length

end LruCache

/-- Modelled from the spec: `byteview.go` (type `ByteView`) is not among the source files. An
immutable value is a sequence of bytes that exposes its length. -/
structure ByteView where
  b : List UInt8
deriving DecidableEq

/-- Modelled from the spec: `ByteView.Len`, the number of bytes held. -/
def ByteView.Len (v : ByteView) : Nat :=
  v.b.length

instance : LruCache.Value ByteView where
  Len := fun v => (v.Len : Int)


namespace LruCache

variable {V : Type} [Value V]

/-- Op: one call on the store. -/
inductive Op (V : Type) where
  | add (key : String) (value : V)
  | get (key : String)
  | removeOldest
deriving DecidableEq

/-- The state after one call; `none` when the loop of `Add` runs out of fuel. -/
def step (fuel : Nat) (c : Cache V) : Op V → Option (Cache V)
  | .add key value => Add fuel c key value
  | .get key => some (Get c key).1
  | .removeOldest => some (RemoveOldest c)

/-- The state after a sequence of calls, first call first. -/
def run (fuel : Nat) (c : Cache V) : List (Op V) → Option (Cache V)
  | [] => some c
  | op :: ops => (step fuel c op).bind (fun c' => run fuel c' ops)

/-- Reachable: the states a store created by `New(maxBytes, onEvicted)` takes under
`Add`, `Get` and `RemoveOldest`. -/
inductive Reachable (maxBytes : Int) (onEvicted : Bool) : Cache V → Prop where
  | new : Reachable maxBytes onEvicted (New maxBytes onEvicted)
  | add {c c' : Cache V} (fuel : Nat) (key : String) (value : V) :
      Reachable maxBytes onEvicted c → Add fuel c key value = some c' →
      Reachable maxBytes onEvicted c'
  | get {c : Cache V} (key : String) :
      Reachable maxBytes onEvicted c → Reachable maxBytes onEvicted (Get c key).1
  | removeOldest {c : Cache V} :
      Reachable maxBytes onEvicted c → Reachable maxBytes onEvicted (RemoveOldest c)

/-- The keys of the recency list, front first. -/
def keys {V : Type} (l : List (Element V)) : List String := l.map (fun e => e.Value.key)

/-- The key a call touches in the state `c`: the key of an `Add`, and the key of a `Get` when
the key is live, that is, held by an element of the list. -/
def touched (c : Cache V) : Op V → Option String
  | .add key _ => some key
  | .get key => if key ∈ keys c.ll then some key else none
  | .removeOldest => none

/-- The keys touched by a sequence of calls, one item per call, first call first. -/
def touchLog (fuel : Nat) (c : Cache V) : List (Op V) → List (Option String)
  | [] => []
  | op :: ops =>
    touched c op ::
      (match step fuel c op with
       | some c' => touchLog fuel c' ops
       | none => [])

/-- The time of the last touch of `key` in a touch log given newest item first: the number of
items from the first item that is `key` to the end, and 0 when there is no such item. -/
def lastTouchRev : List (Option String) → String → Nat
  | [], _ => 0
  | t :: log, key => if t = some key then log.length + 1 else lastTouchRev log key

/-- The time of the last touch of `key` in a touch log: the position, counted from 1, of the
last item that is `key`, and 0 when the key was never touched. -/
def lastTouch (log : List (Option String)) (key : String) : Nat :=
  lastTouchRev log.reverse key

/-- The value of the last `Add` of `key` in a sequence of calls. -/
def lastAdded : List (Op V) → String → Option V
  | [], _ => none
  | op :: ops, key =>
    match lastAdded ops key with
    | some v => some v
    | none =>
      match op with
      | .add k v => if k = key then some v else none
      | _ => none

/-- The element identifiers of the recency list. -/
def ids {V : Type} (l : List (Element V)) : List Nat := l.map (fun e => e.id)

/-- The bytes charged for a list of elements: the sum of `len(key) + value.Len()`, as an
integer without wrap-around. -/
def usage (l : List (Element V)) : Int := (l.map (fun e => e.Value.size)).sum

/-- Inv: the representation invariant of the store. Element identifiers and keys of the recency
list are pairwise distinct, the index binds exactly the keys of the list, each to the element
that holds the key, the usage counter is the `int64` value of the sum of the entry sizes, and
every element identifier was handed out by the allocator. -/
structure Inv (c : Cache V) : Prop where
  ids_nodup : (ids c.ll).Nodup
  keys_nodup : (keys c.ll).Nodup
  index_nodup : (c.cache.map Prod.fst).Nodup
  index_iff : ∀ k p, mapGet c.cache k = some p ↔ ∃ e ∈ c.ll, e.id = p ∧ e.Value.key = k
  usage_eq : c.nBytes = int64 (usage c.ll)
  fresh : ∀ e ∈ c.ll, e.id < c.nextId

/-- RecencySorted: the keys, front first, are in strictly decreasing order of last touch, and
each of them has been touched. -/
def RecencySorted (log : List (Option String)) (l : List String) : Prop :=
  l.Pairwise (fun a b => lastTouch log b < lastTouch log a) ∧ ∀ k ∈ l, 0 < lastTouch log k

/-- OldestAtBack: `RemoveOldest` removes the element at the back of the list, and no live key
has an older last touch than the key of that element. -/
def OldestAtBack (log : List (Option String)) (c : Cache V) : Prop :=
  ∀ l e, c.ll = l ++ [e] →
    (RemoveOldest c).ll = l ∧
    ∀ k ∈ keys c.ll, lastTouch log e.Value.key ≤ lastTouch log k

/-- EvictsLruSuffix: what `Add(key, value)` does to the state `c` when it returns `c'`, `log`
being the touch log before the call. The insert or update brings `key` to the front, the other
keys keeping their order, and the list is then in order of last touch; the loop removes the
suffix `r` of that list, every key of which has an older last touch than every key that is
kept; what is kept is within the budget (or the budget is 0); and no shorter suffix would do:
with a non-empty part `r1` of `r` kept as well, the usage, as the `int64` counter holds it,
exceeds the budget. -/
def EvictsLruSuffix (log : List (Option String)) (c : Cache V) (key : String) (value : V)
    (c' : Cache V) (r : List (Element V)) : Prop :=
  keys (addEntry c key value).ll = key :: (keys c.ll).erase key ∧
  RecencySorted (log ++ [some key]) (keys (addEntry c key value).ll) ∧
  (addEntry c key value).ll = c'.ll ++ r ∧
  (∀ x ∈ c'.ll, ∀ y ∈ r,
    lastTouch (log ++ [some key]) y.Value.key < lastTouch (log ++ [some key]) x.Value.key) ∧
  (c'.maxBytes = 0 ∨ c'.nBytes ≤ c'.maxBytes) ∧
  c'.nBytes = int64 (usage c'.ll) ∧ c'.maxBytes = c.maxBytes ∧
  (∀ r1 r2, r = r1 ++ r2 → r1 ≠ [] →
    c.maxBytes ≠ 0 ∧ c.maxBytes < int64 (usage (c'.ll ++ r1)))

/-- History: every element of the list holds the value of the last `Add` of its key. -/
def History {V : Type} (ops : List (Op V)) (l : List (Element V)) : Prop :=
  ∀ e ∈ l, lastAdded ops e.Value.key = some e.Value.value

/-- IntValue: a value whose `Len()` returns the integer it holds, as the Go type
`type IntValue int` with the method `func (v IntValue) Len() int { return int(v) }` does. -/
structure IntValue where
  len : Int
deriving DecidableEq

instance : Value IntValue where
  Len := fun v => v.len

/-- The store of budget 10 after `Add("a", v)` with `v.Len() = -100`. -/
def storeNeg : Cache IntValue :=
  { maxBytes := 10, nBytes := -99, ll := [⟨0, ⟨"a", ⟨-100⟩⟩⟩], cache := [("a", 0)],
    OnEvicted := false, nextId := 1, calls := [] }

/-- A three-byte value. -/
def v3 : ByteView := ⟨[1, 2, 3]⟩

/-- A nine-byte value. -/
def v9 : ByteView := ⟨[1, 2, 3, 4, 5, 6, 7, 8, 9]⟩

/-- The store of budget 10 after `Add("ab", v3)`. -/
def store1 : Cache ByteView :=
  { maxBytes := 10, nBytes := 5, ll := [⟨0, ⟨"ab", v3⟩⟩], cache := [("ab", 0)],
    OnEvicted := true, nextId := 1, calls := [] }

/-- The store of budget 10 after `Add("ab", v3)` and `Add("cd", v3)`. -/
def store2 : Cache ByteView :=
  { maxBytes := 10, nBytes := 10, ll := [⟨1, ⟨"cd", v3⟩⟩, ⟨0, ⟨"ab", v3⟩⟩],
    cache := [("cd", 1), ("ab", 0)], OnEvicted := true, nextId := 2, calls := [] }

/-- The store of budget 10 after `Add("ab", v3)`, `Add("cd", v3)` and `Add("ef", v3)`. -/
def store3 : Cache ByteView :=
  { maxBytes := 10, nBytes := 10, ll := [⟨2, ⟨"ef", v3⟩⟩, ⟨1, ⟨"cd", v3⟩⟩],
    cache := [("ef", 2), ("cd", 1)], OnEvicted := true, nextId := 3,
    calls := [⟨"ab", v3, ["ef", "cd"], ["ef", "cd"]⟩] }

/-- The store of budget 10 after `Add("ab", v3)`, `Add("cd", v3)`, `Get("ab")` and
`Add("ef", v3)`. -/
def store4 : Cache ByteView :=
  { maxBytes := 10, nBytes := 10, ll := [⟨2, ⟨"ef", v3⟩⟩, ⟨0, ⟨"ab", v3⟩⟩],
    cache := [("ef", 2), ("ab", 0)], OnEvicted := true, nextId := 3,
    calls := [⟨"cd", v3, ["ef", "ab"], ["ef", "ab"]⟩] }

end LruCache

/-!
# myGoCache: the wrapper (`cache.go`) and the groups (`myGoCache.go`)

Modelling conventions.

* The mutexes are left out: they have no effect on a run of one caller.
* A loader is external code. It is a function of the key and of a state `W` of the outside
  world, which it may change; a group logs the keys it called its loader with (`Group.loads`).
* An `error` is its message. A result `(ByteView, error)` is a pair whose second component is
  `none` for `nil`.
* A `*Group` is an address in the list of groups allocated so far; the registry `groups` is an
  association list from names to addresses.
* A call of `Group.Get` that fills the cache runs the loop of `Add`, so it takes fuel; `none`
  means that the call does not return within this fuel. `log.Println` is left out.
-/

namespace myGoCache

/-- Modelled from the spec: `cloneBytes` of `byteview.go`, which is not among the source files;
it returns a copy of the bytes. -/
def cloneBytes (b : List UInt8) : List UInt8 := b

/-- The wrapper `cache`: the store, nil until the first `add`, and its budget. -/
structure cache where
  lru : Option (LruCache.Cache ByteView)
  cacheBytes : Int
deriving DecidableEq

/-- The method `cache.add`: construct the store on first use, then `Add`. -/
def cache.add (fuel : Nat) (c : cache) (key : String) (value : ByteView) : Option cache :=
  let lru : LruCache.Cache ByteView :=
    match c.lru with
    | none => LruCache.New c.cacheBytes false
    | some l => l
  match LruCache.Add fuel lru key value with
  | some l => some { c with lru := some l }
  | none => none

/-- The method `cache.get`: the new state and the result `(value, ok)`; the zero `ByteView` and
`false` when the store is nil or the key misses. -/
def cache.get (c : cache) (key : String) : cache × ByteView × Bool :=
  match c.lru with
  | none => (c, ⟨[]⟩, false)
  | some l =>
    match LruCache.Get l key with
    | (l', some v) => ({ c with lru := some l' }, v, true)
    | (l', none) => ({ c with lru := some l' }, ⟨[]⟩, false)

/-- The store a wrapper stands for: its own store once constructed, and before that the store
`New(cacheBytes, nil)`. -/
def cache.store (c : cache) : LruCache.Cache ByteView :=
  match c.lru with
  | none => LruCache.New c.cacheBytes false
  | some l => l

/-- WOp: one call on a wrapper, or on a store of `ByteView`s. -/
inductive WOp where
  | add (key : String) (value : ByteView)
  | get (key : String)
deriving DecidableEq

/-- The result `(value, ok)` of a wrapper `get` that corresponds to a result of the store's
`Get`. -/
def getResult : Option ByteView → ByteView × Bool
  | some v => (v, true)
  | none => (⟨[]⟩, false)

/-- A sequence of calls on a wrapper: the final state and the results of the `get`s. -/
def cache.run (fuel : Nat) (c : cache) : List WOp → Option (cache × List (ByteView × Bool))
  | [] => some (c, [])
  | WOp.add key value :: ops =>
    match c.add fuel key value with
    | some c' => cache.run fuel c' ops
    | none => none
  | WOp.get key :: ops =>
    match cache.run fuel (c.get key).1 ops with
    | some (c', rs) => some (c', (c.get key).2 :: rs)
    | none => none

/-- The same sequence of calls on a store: the final state and the results of the `Get`s. -/
def storeRun (fuel : Nat) (l : LruCache.Cache ByteView) :
    List WOp → Option (LruCache.Cache ByteView × List (Option ByteView))
  | [] => some (l, [])
  | WOp.add key value :: ops =>
    match LruCache.Add fuel l key value with
    | some l' => storeRun fuel l' ops
    | none => none
  | WOp.get key :: ops =>
    match storeRun fuel (LruCache.Get l key).1 ops with
    | some (l', rs) => some (l', (LruCache.Get l key).2 :: rs)
    | none => none

/-- Error: a Go `error`, given by its message. -/
structure Error where
  msg : String
deriving DecidableEq

/-- Getter: the interface `Getter`; `Get(key)` returns `([]byte, error)` and may change the
outside world. -/
structure Getter (W : Type) where
  Get : String → W → (List UInt8 × Option Error) × W

/-- GetterFunc: a function used as a `Getter`; its `Get` calls the function. -/
def GetterFunc {W : Type} (f : String → W → (List UInt8 × Option Error) × W) : Getter W :=
  ⟨fun key w => f key w⟩

/-- Group: a name, a loader and a cache; `loads` logs the keys the loader was called with. -/
structure Group (W : Type) where
  name : String
  getter : Getter W
  mainCache : cache
  loads : List String

variable {W : Type}

/-- The method `populateCache`. -/
def Group.populateCache (fuel : Nat) (g : Group W) (key : String) (value : ByteView) :
    Option (Group W) :=
  match g.mainCache.add fuel key value with
  | some mc => some { g with mainCache := mc }
  | none => none

/-- The method `getLocally`: call the loader; on an error return it, otherwise copy the bytes,
store the value and return it. -/
def Group.getLocally (fuel : Nat) (g : Group W) (key : String) (w : W) :
    Option ((ByteView × Option Error) × Group W × W) :=
  let r := g.getter.Get key w
  let g1 : Group W := { g with loads := g.loads ++ [key] }
  match r.1.2 with
  | some err => some ((⟨[]⟩, some err), g1, r.2)
  | none =>
    let value : ByteView := ⟨cloneBytes r.1.1⟩
    match g1.populateCache fuel key value with
    | some g2 => some ((value, none), g2, r.2)
    | none => none

/-- The method `load`. -/
def Group.load (fuel : Nat) (g : Group W) (key : String) (w : W) :
    Option ((ByteView × Option Error) × Group W × W) :=
  g.getLocally fuel key w

/-- The method `Group.Get`: the result `(ByteView, error)`, the new state of the group and the
new state of the world. -/
def Group.Get (fuel : Nat) (g : Group W) (key : String) (w : W) :
    Option ((ByteView × Option Error) × Group W × W) :=
  if key = "" then
    some ((⟨[]⟩, some ⟨"key is required"⟩), g, w)
  else
    match g.mainCache.get key with
    | (mc, v, true) => some ((v, none), { g with mainCache := mc }, w)
    | (mc, _, false) => Group.load fuel { g with mainCache := mc } key w

/-- Registry: the package state. `heap` lists the groups allocated so far, a `*Group` being a
position in it; `groups` is the map from names to `*Group`. -/
structure Registry (W : Type) where
  heap : List (Group W)
  groups : List (String × Nat)

/-- The registry at process start. -/
def Registry.empty : Registry W := ⟨[], []⟩

/-- NewGroup: the new registry and either the panic value or the new `*Group`; `getter` is
`none` for a nil `Getter`. -/
def NewGroup (r : Registry W) (name : String) (cacheBytes : Int) (getter : Option (Getter W)) :
    Registry W × Except String Nat :=
  match getter with
  | none => (r, Except.error "nil Getter")
  | some gt =>
    let g : Group W :=
      { name := name, getter := gt, mainCache := { lru := none, cacheBytes := cacheBytes },
        loads := [] }
    ({ heap := r.heap ++ [g], groups := LruCache.mapSet r.groups name r.heap.length },
      Except.ok r.heap.length)

/-- GetGroup: the `*Group` registered under the name, or nil. -/
def GetGroup (r : Registry W) (name : String) : Option Nat :=
  LruCache.mapGet r.groups name

/-- The registry after a sequence of `NewGroup` calls, first call first. -/
def registryRun (r : Registry W) : List (String × Int × Option (Getter W)) → Registry W
  | [] => r
  | (name, cacheBytes, getter) :: calls =>
    registryRun (NewGroup r name cacheBytes getter).1 calls

/-- GroupReachable: the states of a group created by `NewGroup(name, cacheBytes, getter)` under
calls of `Group.Get`. -/
inductive GroupReachable (name : String) (cacheBytes : Int) (getter : Getter W) :
    Group W → Prop where
  | new : GroupReachable name cacheBytes getter
      { name := name, getter := getter, mainCache := { lru := none, cacheBytes := cacheBytes },
        loads := [] }
  | get {g g' : Group W} (fuel : Nat) (key : String) (w w' : W) (res : ByteView × Option Error) :
      GroupReachable name cacheBytes getter g → Group.Get fuel g key w = some (res, g', w') →
      GroupReachable name cacheBytes getter g'

/-- The table `db` of `main.go`. -/
def db : List (String × String) := [("Tom", "630"), ("Jack", "589"), ("Sam", "567")]

/-- The loader of `main.go`: the bytes of the score, or the error that the key does not exist. -/
def dbGetter : Getter Unit :=
  GetterFunc (fun key w =>
    match db.lookup key with
    | some v => ((v.toUTF8.data.toList, none), w)
    | none => (([], some ⟨key ++ " not exist"⟩), w))

/-- The group "scores" of `main.go` with a budget of `cacheBytes`, as `NewGroup` makes it. -/
def scores (cacheBytes : Int) : Group Unit :=
  { name := "scores", getter := dbGetter, mainCache := { lru := none, cacheBytes := cacheBytes },
    loads := [] }

/-- The group "scores" with a budget of 2048 bytes after `Get("Tom")`. -/
def scoresTom : Group Unit :=
  { scores 2048 with
    mainCache :=
      { lru := some
          { maxBytes := 2048, nBytes := 6, ll := [⟨0, ⟨"Tom", ⟨[54, 51, 48]⟩⟩⟩],
            cache := [("Tom", 0)], OnEvicted := false, nextId := 1, calls := [] },
        cacheBytes := 2048 },
    loads := ["Tom"] }

end myGoCache
namespace LruCache

section Lemmas

variable {V : Type}

theorem mapGet_mapDelete (m : List (String × Nat)) (k k' : String) :
    mapGet (mapDelete m k) k' = if k' = k then none else mapGet m k' := by
  induction m with
  | nil => simp [mapDelete, mapGet]
  | cons a m ih =>
    obtain ⟨a1, a2⟩ := a
    unfold mapDelete at ih ⊢
    by_cases h : a1 = k
    · subst h
      by_cases h2 : k' = a1
      · subst h2; simpa [List.filter_cons] using ih
      · have h3 : ¬ a1 = k' := fun h => h2 h.symm
        simpa [List.filter_cons, mapGet, h3, h2] using ih
    · by_cases h2 : k' = k
      · subst h2
        simpa [List.filter_cons, h, mapGet] using ih
      · by_cases h3 : a1 = k'
        · simp [List.filter_cons, h, mapGet, h3, h2]
        · simpa [List.filter_cons, h, mapGet, h3, h2] using ih

theorem mapGet_mapSet (m : List (String × Nat)) (k k' : String) (p : Nat) :
    mapGet (mapSet m k p) k' = if k' = k then some p else mapGet m k' := by
  by_cases h : k' = k
  · subst h; simp [mapSet, mapGet]
  · have h2 : ¬ k = k' := fun e => h e.symm
    simp [mapSet, mapGet, h, h2, mapGet_mapDelete]

theorem mapGet_isSome_iff (m : List (String × Nat)) (k : String) :
    (∃ p, mapGet m k = some p) ↔ k ∈ m.map Prod.fst := by
  induction m with
  | nil => simp [mapGet]
  | cons a m ih =>
    obtain ⟨a1, a2⟩ := a
    by_cases h : a1 = k
    · simp [mapGet, h]
    · have h2 : ¬ k = a1 := fun e => h e.symm
      simp only [mapGet, h, if_false, ih, List.map_cons, List.mem_cons, h2, false_or]

theorem mapDelete_keys (m : List (String × Nat)) (k : String) :
    (mapDelete m k).map Prod.fst = (m.map Prod.fst).filter (fun x => decide (x ≠ k)) := by
  simp [mapDelete, List.filter_map, Function.comp_def]

theorem deref_some {l : List (Element V)} {p : Nat} {e : Element V} (h : deref l p = some e) :
    e ∈ l ∧ e.id = p := by
  induction l with
  | nil => simp [deref] at h
  | cons a l ih =>
    by_cases ha : a.id = p
    · simp [deref, ha] at h; subst h; simp [ha]
    · simp [deref, ha] at h
      exact ⟨List.mem_cons_of_mem _ (ih h).1, (ih h).2⟩

theorem deref_none {l : List (Element V)} {p : Nat} (h : deref l p = none) :
    ∀ e ∈ l, e.id ≠ p := by
  induction l with
  | nil => simp
  | cons a l ih =>
    by_cases ha : a.id = p
    · simp [deref, ha] at h
    · simp only [deref, ha, if_false] at h
      intro e he
      rcases List.mem_cons.1 he with rfl | he
      · exact ha
      · exact ih h e he

theorem unlink_of_not_mem {l : List (Element V)} {p : Nat} (h : ∀ e ∈ l, e.id ≠ p) :
    unlink l p = l := by
  unfold unlink
  rw [List.filter_eq_self]
  intro e he
  simpa using h e he

theorem deref_split {l1 l2 : List (Element V)} {e : Element V}
    (h : (ids (l1 ++ e :: l2)).Nodup) : deref (l1 ++ e :: l2) e.id = some e := by
  induction l1 with
  | nil => simp [deref]
  | cons a l1 ih =>
    have h1 : a.id ≠ e.id := by
      intro heq
      simp only [ids, List.cons_append, List.map_cons, List.nodup_cons] at h
      apply h.1
      rw [heq]
      exact List.mem_map_of_mem _ (List.mem_append_right _ (List.mem_cons_self _ _))
    have h2 : (ids (l1 ++ e :: l2)).Nodup := by
      simp only [ids, List.cons_append, List.map_cons, List.nodup_cons] at h ⊢
      exact h.2
    simp [deref, h1, ih h2]

theorem unlink_split {l1 l2 : List (Element V)} {e : Element V}
    (h : (ids (l1 ++ e :: l2)).Nodup) : unlink (l1 ++ e :: l2) e.id = l1 ++ l2 := by
  have hn : ∀ x ∈ l1 ++ l2, x.id ≠ e.id := by
    intro x hx heq
    simp only [ids, List.map_append, List.map_cons] at h
    have h' := List.nodup_middle.1 h
    rw [List.nodup_cons] at h'
    apply h'.1
    rw [← List.map_append, ← heq]
    exact List.mem_map_of_mem _ hx
  have h1 : unlink l1 e.id = l1 := unlink_of_not_mem (fun x hx => hn x (List.mem_append_left _ hx))
  have h2 : unlink l2 e.id = l2 := unlink_of_not_mem (fun x hx => hn x (List.mem_append_right _ hx))
  unfold unlink at *
  rw [List.filter_append, List.filter_cons, h1, h2]
  simp

theorem setValue_of_not_mem {l : List (Element V)} {p : Nat} (v : V) (h : ∀ e ∈ l, e.id ≠ p) :
    setValue l p v = l := by
  unfold setValue
  conv_rhs => rw [← List.map_id l]
  apply List.map_congr_left
  intro e he
  simp [h e he]

theorem Get_miss {c : Cache V} {k : String} (h : mapGet c.cache k = none) :
    Get c k = (c, none) := by
  simp only [Get, h]

end Lemmas

end LruCache
namespace LruCache

section Invariant

variable {V : Type} [Value V]

theorem usage_nil : usage ([] : List (Element V)) = 0 := rfl

theorem usage_cons (e : Element V) (l : List (Element V)) :
    usage (e :: l) = e.Value.size + usage l := by
  simp [usage]

theorem usage_append (l1 l2 : List (Element V)) : usage (l1 ++ l2) = usage l1 + usage l2 := by
  simp [usage, List.sum_append]

theorem usage_middle (l1 l2 : List (Element V)) (e : Element V) :
    usage (l1 ++ e :: l2) = e.Value.size + usage (l1 ++ l2) := by
  simp only [usage_append, usage_cons]; omega

/-- The sum of sizes that are not negative is not negative. -/
theorem usage_nonneg {l : List (Element V)} (h : ∀ e ∈ l, 0 ≤ e.Value.size) : 0 ≤ usage l := by
  induction l with
  | nil => simp [usage]
  | cons e l ih =>
    rw [usage_cons]
    have h1 := h e (List.mem_cons_self _ _)
    have h2 := ih (fun x hx => h x (List.mem_cons_of_mem _ hx))
    omega

omit [Value V] in
theorem int64_zero : int64 0 = 0 := by decide

omit [Value V] in
theorem int64_range (x : Int) :
    -9223372036854775808 ≤ int64 x ∧ int64 x < 9223372036854775808 := by
  unfold int64; omega

omit [Value V] in
theorem int64_of_range {x : Int} (h1 : -9223372036854775808 ≤ x)
    (h2 : x < 9223372036854775808) : int64 x = x := by
  unfold int64; omega

omit [Value V] in
theorem int64_add_hit (n a b : Int) : int64 (n + int64 (int64 a - int64 b)) = int64 (n + (a - b)) := by
  unfold int64; omega

omit [Value V] in
theorem int64_add_miss (n k a : Int) :
    int64 (n + int64 (int64 k + int64 a)) = int64 (n + (k + a)) := by
  unfold int64; omega

omit [Value V] in
theorem int64_sub (n k a : Int) : int64 (n - int64 (int64 k + int64 a)) = int64 (n - (k + a)) := by
  unfold int64; omega

omit [Value V] in
theorem int64_int64_add (x y : Int) : int64 (int64 x + y) = int64 (x + y) := by
  unfold int64; omega

omit [Value V] in
theorem int64_int64_sub (x y : Int) : int64 (int64 x - y) = int64 (x - y) := by
  unfold int64; omega

theorem Inv_New (maxBytes : Int) (onEvicted : Bool) : Inv (New maxBytes onEvicted : Cache V) := by
  constructor <;> simp [New, ids, keys, usage, mapGet, int64_zero]

theorem Inv.split {c : Cache V} (hc : Inv c) {k : String} {p : Nat}
    (h : mapGet c.cache k = some p) :
    ∃ l1 e l2, c.ll = l1 ++ e :: l2 ∧ e.id = p ∧ e.Value.key = k := by
  obtain ⟨e, he, h1, h2⟩ := (hc.index_iff k p).1 h
  obtain ⟨l1, l2, hl⟩ := List.append_of_mem he
  exact ⟨l1, e, l2, hl, h1, h2⟩

theorem Inv.get_none {c : Cache V} (hc : Inv c) {k : String} (h : mapGet c.cache k = none) :
    k ∉ keys c.ll := by
  intro hk
  obtain ⟨e, he, hek⟩ := List.mem_map.1 hk
  have := (hc.index_iff k e.id).2 ⟨e, he, rfl, hek⟩
  rw [h] at this
  exact Option.noConfusion this

theorem Inv.get_of_mem {c : Cache V} (hc : Inv c) {e : Element V} (he : e ∈ c.ll) :
    mapGet c.cache e.Value.key = some e.id :=
  (hc.index_iff _ _).2 ⟨e, he, rfl, rfl⟩

/-- The state after a hit on `e`: `e`, possibly with a new value, is at the front. -/
theorem Inv.touch {c : Cache V} (hc : Inv c) {l1 l2 : List (Element V)} {e : Element V}
    (hl : c.ll = l1 ++ e :: l2) (v : V) (n : Int)
    (hn : n = int64 (c.nBytes + (Value.Len v - Value.Len e.Value.value))) :
    Inv { c with ll := ⟨e.id, ⟨e.Value.key, v⟩⟩ :: (l1 ++ l2), nBytes := n } := by
  have h1 := hc.ids_nodup
  have h2 := hc.keys_nodup
  have h3 := hc.index_iff
  have h4 := hc.usage_eq
  have h5 := hc.fresh
  rw [hl] at h1 h2 h3 h4 h5
  refine ⟨?_, ?_, hc.index_nodup, ?_, ?_, ?_⟩
  · simp only [ids, List.map_cons, List.map_append] at h1 ⊢
    exact List.nodup_middle.1 h1
  · simp only [keys, List.map_cons, List.map_append] at h2 ⊢
    exact List.nodup_middle.1 h2
  · intro k p
    rw [h3 k p]
    constructor
    · rintro ⟨x, hx, hx1, hx2⟩
      rcases List.mem_append.1 hx with hx | hx
      · exact ⟨x, List.mem_cons_of_mem _ (List.mem_append_left _ hx), hx1, hx2⟩
      · rcases List.mem_cons.1 hx with rfl | hx
        · exact ⟨_, List.mem_cons_self _ _, hx1, hx2⟩
        · exact ⟨x, List.mem_cons_of_mem _ (List.mem_append_right _ hx), hx1, hx2⟩
    · rintro ⟨x, hx, hx1, hx2⟩
      rcases List.mem_cons.1 hx with rfl | hx
      · exact ⟨e, List.mem_append_right _ (List.mem_cons_self _ _), hx1, hx2⟩
      · rcases List.mem_append.1 hx with hx | hx
        · exact ⟨x, List.mem_append_left _ hx, hx1, hx2⟩
        · exact ⟨x, List.mem_append_right _ (List.mem_cons_of_mem _ hx), hx1, hx2⟩
  · simp only [usage_append, usage_cons, entry.size] at h4 ⊢
    rw [hn, h4, int64_int64_add]
    congr 1
    omega
  · intro x hx
    rcases List.mem_cons.1 hx with rfl | hx
    · exact h5 e (List.mem_append_right _ (List.mem_cons_self _ _))
    · rcases List.mem_append.1 hx with hx | hx
      · exact h5 x (List.mem_append_left _ hx)
      · exact h5 x (List.mem_append_right _ (List.mem_cons_of_mem _ hx))

theorem addEntry_hit {c : Cache V} (hc : Inv c) {l1 l2 : List (Element V)} {e : Element V}
    (hl : c.ll = l1 ++ e :: l2) (v : V) :
    addEntry c e.Value.key v =
      { c with ll := ⟨e.id, ⟨e.Value.key, v⟩⟩ :: (l1 ++ l2),
               nBytes := int64 (c.nBytes + (Value.Len v - Value.Len e.Value.value)) } := by
  have hg : mapGet c.cache e.Value.key = some e.id :=
    hc.get_of_mem (by rw [hl]; exact List.mem_append_right _ (List.mem_cons_self _ _))
  have hn := hc.ids_nodup
  rw [hl] at hn
  have hd : deref c.ll e.id = some e := by rw [hl]; exact deref_split hn
  have hu : unlink c.ll e.id = l1 ++ l2 := by rw [hl]; exact unlink_split hn
  have hne : ∀ x ∈ l1 ++ l2, x.id ≠ e.id := by
    intro x hx heq
    simp only [ids, List.map_append, List.map_cons] at hn
    have h' := List.nodup_middle.1 hn
    rw [List.nodup_cons] at h'
    apply h'.1
    rw [← List.map_append, ← heq]
    exact List.mem_map_of_mem _ hx
  have hs : setValue (e :: (l1 ++ l2)) e.id v = ⟨e.id, ⟨e.Value.key, v⟩⟩ :: (l1 ++ l2) := by
    have := setValue_of_not_mem v hne
    unfold setValue at this ⊢
    rw [List.map_cons, this]
    simp
  simp only [addEntry, hg, hd, MoveToFront, hu, hs, int64_add_hit]

theorem Get_hit {c : Cache V} (hc : Inv c) {l1 l2 : List (Element V)} {e : Element V}
    (hl : c.ll = l1 ++ e :: l2) :
    Get c e.Value.key = ({ c with ll := e :: (l1 ++ l2) }, some e.Value.value) := by
  have hg : mapGet c.cache e.Value.key = some e.id :=
    hc.get_of_mem (by rw [hl]; exact List.mem_append_right _ (List.mem_cons_self _ _))
  have hn := hc.ids_nodup
  rw [hl] at hn
  have hd : deref c.ll e.id = some e := by rw [hl]; exact deref_split hn
  have hu : unlink c.ll e.id = l1 ++ l2 := by rw [hl]; exact unlink_split hn
  simp only [Get, hg, hd, MoveToFront, hu]

theorem addEntry_miss {c : Cache V} {k : String} (h : mapGet c.cache k = none) (v : V) :
    addEntry c k v =
      { c with ll := ⟨c.nextId, ⟨k, v⟩⟩ :: c.ll,
               cache := (k, c.nextId) :: mapDelete c.cache k,
               nBytes := int64 (c.nBytes + ((k.utf8ByteSize : Int) + Value.Len v)),
               nextId := c.nextId + 1 } := by
  simp only [addEntry, h, PushFront, mapSet, int64_add_miss]

end Invariant

end LruCache
namespace LruCache

section Preservation

variable {V : Type} [Value V]

theorem Inv.addEntry {c : Cache V} (hc : Inv c) (k : String) (v : V) : Inv (addEntry c k v) := by
  cases h : mapGet c.cache k with
  | some p =>
    obtain ⟨l1, e, l2, hl, -, rfl⟩ := hc.split h
    rw [addEntry_hit hc hl]
    exact hc.touch hl v _ rfl
  | none =>
    rw [addEntry_miss h]
    have hk := hc.get_none h
    refine ⟨?_, ?_, ?_, ?_, ?_, ?_⟩
    · simp only [ids, List.map_cons, List.nodup_cons]
      refine ⟨?_, hc.ids_nodup⟩
      intro hm
      obtain ⟨x, hx, hxe⟩ := List.mem_map.1 hm
      have := hc.fresh x hx
      omega
    · simp only [keys, List.map_cons, List.nodup_cons]
      exact ⟨hk, hc.keys_nodup⟩
    · simp only [List.map_cons, List.nodup_cons, mapDelete_keys]
      refine ⟨?_, hc.index_nodup.filter _⟩
      simp
    · intro k' p
      have := mapGet_mapSet c.cache k k' c.nextId
      simp only [mapSet] at this
      simp only [this]
      by_cases hkk : k' = k
      · subst hkk
        simp only [if_true, List.mem_cons]
        constructor
        · intro hp
          exact ⟨_, Or.inl rfl, Option.some.inj hp, rfl⟩
        · rintro ⟨x, hx | hx, hx1, hx2⟩
          · subst hx; simp at hx1; rw [hx1]
          · exact absurd (List.mem_map.2 ⟨x, hx, hx2⟩) hk
      · simp only [hkk, if_false, List.mem_cons]
        rw [hc.index_iff]
        constructor
        · rintro ⟨x, hx, hx1, hx2⟩
          exact ⟨x, Or.inr hx, hx1, hx2⟩
        · rintro ⟨x, hx | hx, hx1, hx2⟩
          · subst hx; exact absurd hx2.symm hkk
          · exact ⟨x, hx, hx1, hx2⟩
    · simp only [usage_cons, entry.size]
      rw [hc.usage_eq, int64_int64_add]
      congr 1
      omega
    · intro x hx
      rcases List.mem_cons.1 hx with rfl | hx
      · simp
      · have := hc.fresh x hx
        simp only
        omega

theorem Inv.Get {c : Cache V} (hc : Inv c) (k : String) : Inv (Get c k).1 := by
  cases h : mapGet c.cache k with
  | some p =>
    obtain ⟨l1, e, l2, hl, -, rfl⟩ := hc.split h
    rw [Get_hit hc hl]
    have hn : c.nBytes = int64 (c.nBytes + (Value.Len e.Value.value - Value.Len e.Value.value)) := by
      have := int64_range (usage c.ll)
      rw [← hc.usage_eq] at this
      rw [sub_self, add_zero, int64_of_range this.1 this.2]
    have := hc.touch hl e.Value.value c.nBytes hn
    simpa using this
  | none =>
    rw [Get_miss h]
    exact hc

/-- RemoveOldest on a non-empty list: the back element leaves the list and the index, the
usage drops by its size, and the callback, when set, is called once afterwards. -/
theorem RemoveOldest_snoc {c : Cache V} (hc : Inv c) {l : List (Element V)} {e : Element V}
    (hl : c.ll = l ++ [e]) :
    RemoveOldest c =
      { c with ll := l, cache := mapDelete c.cache e.Value.key,
               nBytes := int64 (c.nBytes - e.Value.size),
               calls := if c.OnEvicted then
                   c.calls ++ [⟨e.Value.key, e.Value.value, keys l,
                     (mapDelete c.cache e.Value.key).map Prod.fst⟩]
                 else c.calls } := by
  have hb : Back c.ll = some e := by simp [Back, hl]
  have hn := hc.ids_nodup
  rw [hl] at hn
  have hu : unlink c.ll e.id = l := by
    rw [hl]
    have := @unlink_split V l [] e hn
    simpa using this
  simp only [RemoveOldest, hb, Remove, hu, keys, entry.size, int64_sub]

theorem RemoveOldest_nil {c : Cache V} (hl : c.ll = []) : RemoveOldest c = c := by
  simp [RemoveOldest, Back, hl]

theorem Inv.RemoveOldest {c : Cache V} (hc : Inv c) : Inv (RemoveOldest c) := by
  rcases List.eq_nil_or_concat c.ll with hl | ⟨l, e, hl⟩
  · rw [RemoveOldest_nil hl]; exact hc
  · rw [List.concat_eq_append] at hl
    rw [RemoveOldest_snoc hc hl]
    have h1 := hc.ids_nodup
    have h2 := hc.keys_nodup
    have h3 := hc.index_iff
    have h4 := hc.usage_eq
    have h5 := hc.fresh
    rw [hl] at h1 h2 h3 h4 h5
    refine ⟨?_, ?_, ?_, ?_, ?_, ?_⟩
    · simp only [ids, List.map_append] at h1 ⊢
      exact (List.nodup_append.1 h1).1
    · simp only [keys, List.map_append] at h2 ⊢
      exact (List.nodup_append.1 h2).1
    · simp only [mapDelete_keys]
      exact hc.index_nodup.filter _
    · intro k p
      simp only [mapGet_mapDelete]
      have hek : ∀ x ∈ l, x.Value.key ≠ e.Value.key := by
        intro x hx heq
        simp only [keys, List.map_append, List.map_cons, List.map_nil] at h2
        have := (List.nodup_append.1 h2).2.2
        exact List.disjoint_left.1 this (List.mem_map_of_mem _ hx) (by simp [heq])
      by_cases hk : k = e.Value.key
      · subst hk
        simp only [if_true]
        constructor
        · intro h; exact Option.noConfusion h
        · rintro ⟨x, hx, -, hx2⟩
          exact absurd hx2 (hek x hx)
      · simp only [hk, if_false]
        rw [h3]
        constructor
        · rintro ⟨x, hx, hx1, hx2⟩
          rcases List.mem_append.1 hx with hx | hx
          · exact ⟨x, hx, hx1, hx2⟩
          · rw [List.mem_singleton] at hx
            subst hx
            exact absurd hx2.symm hk
        · rintro ⟨x, hx, hx1, hx2⟩
          exact ⟨x, List.mem_append_left _ hx, hx1, hx2⟩
    · simp only [usage_append, usage_cons, usage_nil] at h4 ⊢
      rw [h4, int64_int64_sub]
      congr 1
      omega
    · intro x hx
      exact h5 x (List.mem_append_left _ hx)

theorem Inv.nBytes_int64 {c : Cache V} (hc : Inv c) : int64 c.nBytes = c.nBytes := by
  have := int64_range (usage c.ll)
  rw [← hc.usage_eq] at this
  exact int64_of_range this.1 this.2

theorem Inv.evictLoop {fuel : Nat} {c c' : Cache V} (hc : Inv c)
    (h : evictLoop fuel c = some c') : Inv c' := by
  induction fuel generalizing c with
  | zero =>
    unfold LruCache.evictLoop at h
    split at h
    · exact Option.noConfusion h
    · cases h; exact hc
  | succ n ih =>
    unfold LruCache.evictLoop at h
    split at h
    · exact ih hc.RemoveOldest h
    · cases h; exact hc

theorem Inv.Add {fuel : Nat} {c c' : Cache V} {k : String} {v : V} (hc : Inv c)
    (h : Add fuel c k v = some c') : Inv c' :=
  (hc.addEntry k v).evictLoop h

end Preservation

end LruCache
namespace LruCache

section Loop

variable {V : Type} [Value V]

theorem RemoveOldest_maxBytes (c : Cache V) : (RemoveOldest c).maxBytes = c.maxBytes := by
  unfold RemoveOldest; split <;> rfl

theorem RemoveOldest_OnEvicted (c : Cache V) : (RemoveOldest c).OnEvicted = c.OnEvicted := by
  unfold RemoveOldest; split <;> rfl

theorem addEntry_maxBytes (c : Cache V) (k : String) (v : V) :
    (addEntry c k v).maxBytes = c.maxBytes := by
  unfold addEntry; split
  · split <;> rfl
  · rfl

theorem addEntry_OnEvicted (c : Cache V) (k : String) (v : V) :
    (addEntry c k v).OnEvicted = c.OnEvicted := by
  unfold addEntry; split
  · split <;> rfl
  · rfl

theorem addEntry_calls (c : Cache V) (k : String) (v : V) :
    (addEntry c k v).calls = c.calls := by
  unfold addEntry; split
  · split <;> rfl
  · rfl

theorem evictLoop_done {c : Cache V} (h : ¬ (c.maxBytes ≠ 0 ∧ c.maxBytes < c.nBytes))
    (fuel : Nat) : evictLoop fuel c = some c := by
  unfold evictLoop; simp only [h, if_false]

theorem evictLoop_succ {c : Cache V} (h : c.maxBytes ≠ 0 ∧ c.maxBytes < c.nBytes)
    (fuel : Nat) : evictLoop (fuel + 1) c = evictLoop fuel (RemoveOldest c) := by
  rw [evictLoop, if_pos h]

theorem evictLoop_zero {c : Cache V} (h : c.maxBytes ≠ 0 ∧ c.maxBytes < c.nBytes) :
    evictLoop 0 c = none := by
  rw [evictLoop, if_pos h]

/-- More fuel does not change a result. -/
theorem evictLoop_mono {fuel : Nat} {c c' : Cache V} (h : evictLoop fuel c = some c')
    (n : Nat) : evictLoop (fuel + n) c = some c' := by
  induction fuel generalizing c with
  | zero =>
    by_cases hg : c.maxBytes ≠ 0 ∧ c.maxBytes < c.nBytes
    · rw [evictLoop_zero hg] at h; exact Option.noConfusion h
    · rw [evictLoop_done hg] at h ⊢; exact h
  | succ m ih =>
    by_cases hg : c.maxBytes ≠ 0 ∧ c.maxBytes < c.nBytes
    · rw [evictLoop_succ hg] at h
      have : m + 1 + n = (m + n) + 1 := by omega
      rw [this, evictLoop_succ hg]
      exact ih h
    · rw [evictLoop_done hg] at h ⊢; exact h

/-- The result of the loop does not depend on the fuel. -/
theorem evictLoop_unique {f1 f2 : Nat} {c c1 c2 : Cache V} (h1 : evictLoop f1 c = some c1)
    (h2 : evictLoop f2 c = some c2) : c1 = c2 := by
  have a := evictLoop_mono h1 f2
  have b := evictLoop_mono h2 f1
  rw [Nat.add_comm] at b
  rw [a] at b
  exact Option.some.inj b

/-- The loop on a store with a non-negative budget: it stops after evicting a suffix of the
list, the shortest one whose removal brings the usage within the budget. -/
theorem evictLoop_spec {c : Cache V} (hc : Inv c) (hm : 0 ≤ c.maxBytes) :
    ∃ c' : Cache V,
      (∀ fuel, c.ll.length - c'.ll.length ≤ fuel → evictLoop fuel c = some c') ∧
      c'.ll <+: c.ll ∧ c'.maxBytes = c.maxBytes ∧
      ¬ (c'.maxBytes ≠ 0 ∧ c'.maxBytes < c'.nBytes) ∧
      (∀ m, c'.ll.length < m → m ≤ c.ll.length →
        c.maxBytes ≠ 0 ∧ c.maxBytes < int64 (usage (c.ll.take m))) ∧
      Inv c' := by
  suffices H : ∀ (n : Nat) (c : Cache V), c.ll.length = n → Inv c → 0 ≤ c.maxBytes →
      ∃ c' : Cache V,
      (∀ fuel, c.ll.length - c'.ll.length ≤ fuel → evictLoop fuel c = some c') ∧
      c'.ll <+: c.ll ∧ c'.maxBytes = c.maxBytes ∧
      ¬ (c'.maxBytes ≠ 0 ∧ c'.maxBytes < c'.nBytes) ∧
      (∀ m, c'.ll.length < m → m ≤ c.ll.length →
        c.maxBytes ≠ 0 ∧ c.maxBytes < int64 (usage (c.ll.take m))) ∧
      Inv c' from H _ c rfl hc hm
  clear hc hm c
  intro n
  induction n with
  | zero =>
    intro c hn hc hm
    have hl : c.ll = [] := List.length_eq_zero.1 hn
    have hg : ¬ (c.maxBytes ≠ 0 ∧ c.maxBytes < c.nBytes) := by
      rw [hc.usage_eq, hl, usage_nil, int64_zero]; omega
    refine ⟨c, fun fuel _ => evictLoop_done hg fuel, List.prefix_refl _, rfl, hg, ?_, hc⟩
    intro m h1 h2; rw [hn] at h1; omega
  | succ n ih =>
    intro c hn hc hm
    by_cases hg : c.maxBytes ≠ 0 ∧ c.maxBytes < c.nBytes
    · rcases List.eq_nil_or_concat c.ll with hl | ⟨l, e, hl⟩
      · rw [hl] at hn; simp at hn
      · rw [List.concat_eq_append] at hl
        have hr := RemoveOldest_snoc hc hl
        have hrl : (RemoveOldest c).ll = l := by rw [hr]
        have hln : l.length = n := by
          rw [hl] at hn; simpa using hn
        obtain ⟨c', h1, h2, h3, h4, h5, h6⟩ :=
          ih (RemoveOldest c) (by rw [hrl]; exact hln) hc.RemoveOldest
            (by rw [RemoveOldest_maxBytes]; exact hm)
        rw [hrl] at h1 h2 h5
        rw [RemoveOldest_maxBytes] at h3 h5
        have hle : c'.ll.length ≤ l.length := h2.length_le
        refine ⟨c', ?_, ?_, h3, h4, ?_, h6⟩
        · intro fuel hf
          rw [hn] at hf
          obtain ⟨f, rfl⟩ : ∃ f, fuel = f + 1 := ⟨fuel - 1, by omega⟩
          rw [evictLoop_succ hg]
          exact h1 f (by omega)
        · rw [hl]; exact h2.trans (List.prefix_append _ _)
        · intro m hm1 hm2
          by_cases hmn : m ≤ l.length
          · have := h5 m hm1 hmn
            rw [hl, List.take_append_of_le_length hmn]
            exact this
          · have : m = c.ll.length := by rw [hn] at hm2 ⊢; omega
            rw [this, List.take_length, ← hc.usage_eq]
            exact hg
    · refine ⟨c, fun fuel _ => evictLoop_done hg fuel, List.prefix_refl _, rfl, hg, ?_, hc⟩
      intro m h1 h2; omega

/-- A result of the loop: a prefix of the list is kept, the budget is the same, the guard
fails and the invariant holds. -/
theorem evictLoop_kept {fuel : Nat} {c c' : Cache V} (hc : Inv c)
    (h : evictLoop fuel c = some c') :
    c'.ll <+: c.ll ∧ c'.maxBytes = c.maxBytes ∧
      ¬ (c'.maxBytes ≠ 0 ∧ c'.maxBytes < c'.nBytes) ∧ Inv c' := by
  induction fuel generalizing c with
  | zero =>
    by_cases hg : c.maxBytes ≠ 0 ∧ c.maxBytes < c.nBytes
    · rw [evictLoop_zero hg] at h; exact Option.noConfusion h
    · rw [evictLoop_done hg] at h; cases h
      exact ⟨List.prefix_refl _, rfl, hg, hc⟩
  | succ n ih =>
    by_cases hg : c.maxBytes ≠ 0 ∧ c.maxBytes < c.nBytes
    · rw [evictLoop_succ hg] at h
      obtain ⟨h2, h3, h4, h6⟩ := ih hc.RemoveOldest h
      rw [RemoveOldest_maxBytes] at h3
      refine ⟨?_, h3, h4, h6⟩
      rcases List.eq_nil_or_concat c.ll with hl | ⟨l, e, hl⟩
      · rw [RemoveOldest_nil hl] at h2; exact h2
      · rw [List.concat_eq_append] at hl
        have hrl : (RemoveOldest c).ll = l := by rw [RemoveOldest_snoc hc hl]
        rw [hrl] at h2
        rw [hl]; exact h2.trans (List.prefix_append _ _)
    · rw [evictLoop_done hg] at h; cases h
      exact ⟨List.prefix_refl _, rfl, hg, hc⟩

theorem Reachable.inv {maxBytes : Int} {onEvicted : Bool} {c : Cache V}
    (h : Reachable maxBytes onEvicted c) : Inv c := by
  induction h with
  | new => exact Inv_New _ _
  | add fuel key value _ h ih => exact ih.Add h
  | get key _ ih => exact ih.Get key
  | removeOldest _ ih => exact ih.RemoveOldest

theorem evictLoop_maxBytes {fuel : Nat} {c c' : Cache V} (h : evictLoop fuel c = some c') :
    c'.maxBytes = c.maxBytes ∧ c'.OnEvicted = c.OnEvicted := by
  induction fuel generalizing c with
  | zero =>
    by_cases hg : c.maxBytes ≠ 0 ∧ c.maxBytes < c.nBytes
    · rw [evictLoop_zero hg] at h; exact Option.noConfusion h
    · rw [evictLoop_done hg] at h; cases h; exact ⟨rfl, rfl⟩
  | succ m ih =>
    by_cases hg : c.maxBytes ≠ 0 ∧ c.maxBytes < c.nBytes
    · rw [evictLoop_succ hg] at h
      have := ih h
      rw [RemoveOldest_maxBytes, RemoveOldest_OnEvicted] at this
      exact this
    · rw [evictLoop_done hg] at h; cases h; exact ⟨rfl, rfl⟩

omit [Value V] in
theorem Get_maxBytes (c : Cache V) (k : String) :
    (Get c k).1.maxBytes = c.maxBytes ∧ (Get c k).1.OnEvicted = c.OnEvicted := by
  unfold Get; split
  · split <;> exact ⟨rfl, rfl⟩
  · exact ⟨rfl, rfl⟩

theorem Reachable.maxBytes_eq {maxBytes : Int} {onEvicted : Bool} {c : Cache V}
    (h : Reachable maxBytes onEvicted c) : c.maxBytes = maxBytes ∧ c.OnEvicted = onEvicted := by
  induction h with
  | new => exact ⟨rfl, rfl⟩
  | add fuel key value _ h ih =>
    have := evictLoop_maxBytes h
    rw [addEntry_maxBytes, addEntry_OnEvicted] at this
    exact ⟨this.1.trans ih.1, this.2.trans ih.2⟩
  | @get c key _ ih =>
    have := Get_maxBytes c key
    exact ⟨this.1.trans ih.1, this.2.trans ih.2⟩
  | removeOldest _ ih =>
    rw [RemoveOldest_maxBytes, RemoveOldest_OnEvicted]; exact ih

end Loop

end LruCache
namespace LruCache

section Claims

variable {V : Type} [Value V]

theorem addEntry_length_le {c : Cache V} (hc : Inv c) (k : String) (v : V) :
    (addEntry c k v).ll.length ≤ c.ll.length + 1 := by
  cases h : mapGet c.cache k with
  | some p =>
    obtain ⟨l1, e, l2, hl, -, rfl⟩ := hc.split h
    rw [addEntry_hit hc hl, hl]
    simp
  | none =>
    rw [addEntry_miss h]
    simp

/-- Totality of `Add` on a store with a non-negative budget: it returns, and its result is the same for every
sufficient amount of fuel. -/
theorem Add_total {c : Cache V} (hc : Inv c) (hm : 0 ≤ c.maxBytes) (k : String) (v : V) :
    ∃ c' : Cache V, (∀ fuel, Len c + 1 ≤ fuel → Add fuel c k v = some c') ∧
      (∀ fuel c'', Add fuel c k v = some c'' → c'' = c') ∧
      c'.ll <+: (addEntry c k v).ll ∧ c'.maxBytes = c.maxBytes ∧
      ¬ (c'.maxBytes ≠ 0 ∧ c'.maxBytes < c'.nBytes) ∧
      (∀ m, c'.ll.length < m → m ≤ (addEntry c k v).ll.length →
        c.maxBytes ≠ 0 ∧ c.maxBytes < int64 (usage ((addEntry c k v).ll.take m))) ∧
      Inv c' := by
  obtain ⟨c', h1, h2, h3, h4, h5, h6⟩ :=
    evictLoop_spec (hc.addEntry k v) (by rw [addEntry_maxBytes]; exact hm)
  rw [addEntry_maxBytes] at h3 h5
  have hlen := addEntry_length_le hc k v
  have hf : ∀ fuel, Len c + 1 ≤ fuel → Add fuel c k v = some c' := by
    intro fuel hf
    apply h1
    unfold Len at hf
    omega
  refine ⟨c', hf, ?_, h2, h3, h4, h5, h6⟩
  intro fuel c'' h
  exact evictLoop_unique h (hf _ (le_refl _))

theorem store1_reachable : Reachable 10 true store1 :=
  @Reachable.add ByteView _ 10 true (New 10 true) store1 0 "ab" v3 Reachable.new (by decide)

theorem store2_reachable : Reachable 10 true store2 :=
  @Reachable.add ByteView _ 10 true store1 store2 0 "cd" v3 store1_reachable (by decide)

theorem store3_reachable : Reachable 10 true store3 :=
  @Reachable.add ByteView _ 10 true store2 store3 1 "ef" v3 store2_reachable (by decide)

/-- C1 (eviction bound): on a store created by `New` with a budget `maxBytes > 0`, in any state
reached by `Add`, `Get` and `RemoveOldest`, every `Add` returns (for any fuel of at least
`Len() + 1`, the result being independent of the fuel) and leaves the tracked usage `nBytes`
at most `maxBytes`. -/
theorem eviction_bound (maxBytes : Int) (onEvicted : Bool) (c : Cache V) (key : String)
    (value : V) (hpos : 0 < maxBytes) (hc : Reachable maxBytes onEvicted c) :
    ∃ c' : Cache V, (∀ fuel, Len c + 1 ≤ fuel → Add fuel c key value = some c') ∧
      (∀ fuel c'', Add fuel c key value = some c'' → c'' = c') ∧
      c'.maxBytes = maxBytes ∧ c'.nBytes ≤ maxBytes := by
  have hm := hc.maxBytes_eq.1
  obtain ⟨c', h1, h2, -, h4, h5, -, -⟩ := Add_total hc.inv (by omega) key value
  refine ⟨c', h1, h2, h4.trans hm, ?_⟩
  rw [h4, hm] at h5
  by_contra hlt
  exact h5 ⟨by omega, by omega⟩

/-- Witness of C1: the third `Add` of the budget-10 scenario. -/
theorem eviction_bound_witness :
    ∃ c' : Cache ByteView, (∀ fuel, Len store2 + 1 ≤ fuel → Add fuel store2 "ef" v3 = some c') ∧
      (∀ fuel c'', Add fuel store2 "ef" v3 = some c'' → c'' = c') ∧
      c'.maxBytes = 10 ∧ c'.nBytes ≤ 10 :=
  eviction_bound 10 true store2 "ef" v3 (by decide)
    store2_reachable

/-- C2, counterexample: on a store of budget 10, `Add("a", v)` with `v.Len() = -5` leaves the
usage -4, which is negative; and `Add("a", v)` with `v.Len() = 2^63 - 1` on a store of budget 0
leaves the usage -2^63, which is not the sum `1 + (2^63 - 1)` of the entry that is live. -/
theorem size_accounting_counterexample :
    (∃ c : Cache IntValue, Add 0 (New 10 false) "a" ⟨-5⟩ = some c ∧ Len c = 1 ∧
      c.nBytes = -4 ∧ c.nBytes < 0) ∧
    (∃ c : Cache IntValue, Add 0 (New 0 false) "a" ⟨9223372036854775807⟩ = some c ∧
      Len c = 1 ∧ c.nBytes = -9223372036854775808 ∧
      c.nBytes ≠ (c.ll.map (fun e =>
        (e.Value.key.utf8ByteSize : Int) + Value.Len e.Value.value)).sum) :=
  ⟨⟨{ maxBytes := 10, nBytes := -4, ll := [⟨0, ⟨"a", ⟨-5⟩⟩⟩], cache := [("a", 0)],
      OnEvicted := false, nextId := 1, calls := [] }, by decide, by decide, by decide, by decide⟩,
   ⟨{ maxBytes := 0, nBytes := -9223372036854775808,
      ll := [⟨0, ⟨"a", ⟨9223372036854775807⟩⟩⟩], cache := [("a", 0)],
      OnEvicted := false, nextId := 1, calls := [] }, by decide, by decide, by decide, by decide⟩⟩

/-- C2, amended: in every state reachable from `New` by `Add`, `Get` and `RemoveOldest`, the
tracked usage `nBytes` is the sum over the entries of the store of `len(key) + value.Len()`
reduced into the `int64` range; it is 0 when the store is empty; and when no entry has a value
of negative `Len()` and the sum is below 2^63, `nBytes` is that sum and is not negative. -/
theorem size_accounting (maxBytes : Int) (onEvicted : Bool) (c : Cache V)
    (hc : Reachable maxBytes onEvicted c) :
    c.nBytes = int64 ((c.ll.map (fun e =>
        (e.Value.key.utf8ByteSize : Int) + Value.Len e.Value.value)).sum) ∧
      (Len c = 0 → c.nBytes = 0) ∧
      ((∀ e ∈ c.ll, 0 ≤ Value.Len e.Value.value) →
        (c.ll.map (fun e =>
          (e.Value.key.utf8ByteSize : Int) + Value.Len e.Value.value)).sum <
            9223372036854775808 →
        c.nBytes = (c.ll.map (fun e =>
          (e.Value.key.utf8ByteSize : Int) + Value.Len e.Value.value)).sum ∧
        0 ≤ c.nBytes) := by
  have h := hc.inv.usage_eq
  refine ⟨h, ?_, ?_⟩
  · intro h0
    rw [h, List.length_eq_zero.1 h0, usage_nil, int64_zero]
  · intro hpos hlt
    have hnn : 0 ≤ usage c.ll := usage_nonneg (fun e he => by
      have := hpos e he
      unfold entry.size
      omega)
    have heq : c.nBytes = usage c.ll := by
      rw [h]
      exact int64_of_range (by omega) hlt
    exact ⟨heq, by rw [heq]; exact hnn⟩

/-- Witness of C2 (amended): the store after two `Add`s. -/
theorem size_accounting_witness :
    store2.nBytes = int64 ((store2.ll.map (fun e =>
        (e.Value.key.utf8ByteSize : Int) + Value.Len e.Value.value)).sum) ∧
      (Len store2 = 0 → store2.nBytes = 0) ∧
      ((∀ e ∈ store2.ll, 0 ≤ Value.Len e.Value.value) →
        (store2.ll.map (fun e =>
          (e.Value.key.utf8ByteSize : Int) + Value.Len e.Value.value)).sum <
            9223372036854775808 →
        store2.nBytes = (store2.ll.map (fun e =>
          (e.Value.key.utf8ByteSize : Int) + Value.Len e.Value.value)).sum ∧
        0 ≤ store2.nBytes) :=
  size_accounting 10 true store2 store2_reachable

end Claims

end LruCache
namespace LruCache

section Values

variable {V : Type} [Value V]

omit [Value V] in
theorem keys_split_ne {l1 l2 : List (Element V)} {e : Element V}
    (h : (keys (l1 ++ e :: l2)).Nodup) : ∀ x ∈ l1 ++ l2, x.Value.key ≠ e.Value.key := by
  intro x hx heq
  simp only [keys, List.map_append, List.map_cons] at h
  have h' := List.nodup_middle.1 h
  rw [List.nodup_cons] at h'
  apply h'.1
  rw [← List.map_append, ← heq]
  exact List.mem_map_of_mem (fun e => e.Value.key) hx

/-- A hit on the element at the front changes nothing. -/
theorem Get_front {c : Cache V} (hc : Inv c) {e : Element V} {l : List (Element V)}
    (hl : c.ll = e :: l) : Get c e.Value.key = (c, some e.Value.value) := by
  have h := @Get_hit V _ c hc [] l e (by simpa using hl)
  rw [h]
  simp only [List.nil_append, ← hl]

theorem Inv.mem_keys_iff {c : Cache V} (hc : Inv c) (k : String) :
    k ∈ keys c.ll ↔ ∃ p, mapGet c.cache k = some p := by
  constructor
  · intro hk
    obtain ⟨e, he, hek⟩ := List.mem_map.1 hk
    exact ⟨e.id, (hc.index_iff k e.id).2 ⟨e, he, rfl, hek⟩⟩
  · rintro ⟨p, hp⟩
    obtain ⟨e, he, -, hek⟩ := (hc.index_iff k p).1 hp
    exact List.mem_map.2 ⟨e, he, hek⟩

theorem Inv.get_none_of_not_mem {c : Cache V} (hc : Inv c) {k : String} (h : k ∉ keys c.ll) :
    mapGet c.cache k = none := by
  cases hg : mapGet c.cache k with
  | none => rfl
  | some p => exact absurd ((hc.mem_keys_iff k).2 ⟨p, hg⟩) h

end Values

end LruCache
namespace LruCache

section Claims2

variable {V : Type} [Value V]

end Claims2

end LruCache
namespace LruCache

section Claims3

variable {V : Type} [Value V]

end Claims3

end LruCache
namespace LruCache

section Keys

variable {V : Type} [Value V]

omit [Value V] in
theorem keys_append (l1 l2 : List (Element V)) : keys (l1 ++ l2) = keys l1 ++ keys l2 := by
  simp [keys]

omit [Value V] in
theorem keys_cons (e : Element V) (l : List (Element V)) :
    keys (e :: l) = e.Value.key :: keys l := rfl

omit [Value V] in
theorem keys_erase_split {l1 l2 : List (Element V)} {e : Element V}
    (h : (keys (l1 ++ e :: l2)).Nodup) :
    (keys (l1 ++ e :: l2)).erase e.Value.key = keys (l1 ++ l2) := by
  have hne := keys_split_ne h
  have h1 : e.Value.key ∉ keys l1 := by
    intro hm
    obtain ⟨x, hx, hxe⟩ := List.mem_map.1 hm
    exact hne x (List.mem_append_left _ hx) hxe
  rw [keys_append, keys_cons, List.erase_append_right _ h1, List.erase_cons_head, keys_append]

/-- The keys after the insert-or-update step of `Add`: the key is at the front, the other keys
follow in their previous order. -/
theorem keys_addEntry {c : Cache V} (hc : Inv c) (k : String) (v : V) :
    keys (addEntry c k v).ll = k :: (keys c.ll).erase k := by
  cases h : mapGet c.cache k with
  | some p =>
    obtain ⟨l1, e, l2, hl, -, rfl⟩ := hc.split h
    have hk := hc.keys_nodup
    rw [hl] at hk
    rw [addEntry_hit hc hl, hl, keys_erase_split hk]
    rfl
  | none =>
    rw [addEntry_miss h, List.erase_of_not_mem (hc.get_none h)]
    rfl

/-- The keys after a `Get` that hits. -/
theorem keys_Get_hit {c : Cache V} (hc : Inv c) {k : String} (hk : k ∈ keys c.ll) :
    keys (Get c k).1.ll = k :: (keys c.ll).erase k := by
  obtain ⟨p, h⟩ := (hc.mem_keys_iff k).1 hk
  obtain ⟨l1, e, l2, hl, -, rfl⟩ := hc.split h
  have hn := hc.keys_nodup
  rw [hl] at hn
  rw [Get_hit hc hl, hl, keys_erase_split hn]
  rfl

theorem Get_isSome_iff {c : Cache V} (hc : Inv c) (k : String) :
    (Get c k).2.isSome = true ↔ k ∈ keys c.ll := by
  constructor
  · intro h
    by_contra hk
    rw [Get_miss (hc.get_none_of_not_mem hk)] at h
    simp at h
  · intro hk
    obtain ⟨p, h⟩ := (hc.mem_keys_iff k).1 hk
    obtain ⟨l1, e, l2, hl, -, rfl⟩ := hc.split h
    rw [Get_hit hc hl]
    rfl

/-- The element at the front after the insert-or-update step of `Add`. -/
theorem addEntry_head {c : Cache V} (hc : Inv c) (k : String) (v : V) :
    ∃ e0 rest, (addEntry c k v).ll = e0 :: rest ∧ e0.Value = ⟨k, v⟩ := by
  cases h : mapGet c.cache k with
  | some p =>
    obtain ⟨l1, e, l2, hl, -, rfl⟩ := hc.split h
    rw [addEntry_hit hc hl]
    exact ⟨_, _, rfl, rfl⟩
  | none =>
    rw [addEntry_miss h]
    exact ⟨_, _, rfl, rfl⟩

/-- The sum of the sizes after the insert-or-update step of `Add`, when no value in the store
has a negative `Len()`: every size in the new list is that of the new entry or of an old one,
and the sum is at most the old sum plus the size of the new entry. -/
theorem addEntry_usage_le {c : Cache V} (hc : Inv c) (k : String) (v : V)
    (hnn : ∀ e ∈ c.ll, 0 ≤ Value.Len e.Value.value) :
    usage (addEntry c k v).ll ≤ usage c.ll + ((k.utf8ByteSize : Int) + Value.Len v) ∧
      ∀ x ∈ (addEntry c k v).ll, x.Value = ⟨k, v⟩ ∨ 0 ≤ x.Value.size := by
  have hsz : ∀ e ∈ c.ll, 0 ≤ e.Value.size := by
    intro e he
    have := hnn e he
    unfold entry.size
    omega
  cases h : mapGet c.cache k with
  | some p =>
    obtain ⟨l1, e, l2, hl, -, rfl⟩ := hc.split h
    rw [addEntry_hit hc hl, hl]
    have he := hsz e (by rw [hl]; exact List.mem_append_right _ (List.mem_cons_self _ _))
    constructor
    · simp only [usage_middle, usage_cons, entry.size] at he ⊢
      omega
    · intro x hx
      rcases List.mem_cons.1 hx with rfl | hx
      · exact Or.inl rfl
      · right
        apply hsz
        rw [hl]
        rcases List.mem_append.1 hx with hx | hx
        · exact List.mem_append_left _ hx
        · exact List.mem_append_right _ (List.mem_cons_of_mem _ hx)
  | none =>
    rw [addEntry_miss h]
    constructor
    · simp only [usage_cons, entry.size]
      omega
    · intro x hx
      rcases List.mem_cons.1 hx with rfl | hx
      · exact Or.inl rfl
      · exact Or.inr (hsz x hx)

/-- An entry larger than a positive budget, on a store without negative `Len()` whose sizes,
the new entry included, sum to less than 2^63: `Add` leaves the list empty. -/
theorem Add_oversized {c c' : Cache V} {fuel : Nat} {key : String} {value : V} (hc : Inv c)
    (hpos : 0 < c.maxBytes)
    (hbig : c.maxBytes < (key.utf8ByteSize : Int) + Value.Len value)
    (hnn : ∀ e ∈ c.ll, 0 ≤ Value.Len e.Value.value)
    (hlt : usage c.ll + ((key.utf8ByteSize : Int) + Value.Len value) < 9223372036854775808)
    (h : Add fuel c key value = some c') : c'.ll = [] ∧ Inv c' := by
  obtain ⟨h2, h3, h4, h6⟩ := evictLoop_kept (hc.addEntry key value) h
  rw [addEntry_maxBytes] at h3
  obtain ⟨e0, rest, hl, he0⟩ := addEntry_head hc key value
  obtain ⟨hle, hsz⟩ := addEntry_usage_le hc key value hnn
  refine ⟨?_, h6⟩
  cases hc' : c'.ll with
  | nil => rfl
  | cons a l' =>
    exfalso
    obtain ⟨r, hr⟩ := h2
    rw [hc'] at hr
    have ha : a = e0 := by
      rw [hl] at hr
      exact (List.cons.inj hr).1
    have hl'nn : 0 ≤ usage l' := by
      apply usage_nonneg
      intro x hx
      have hxm : x ∈ (addEntry c key value).ll := by
        rw [← hr]; exact List.mem_cons_of_mem _ (List.mem_append_left _ hx)
      rcases hsz x hxm with hv | hv
      · rw [hv]; simp only [entry.size]; omega
      · exact hv
    have hrnn : 0 ≤ usage r := by
      apply usage_nonneg
      intro x hx
      have hxm : x ∈ (addEntry c key value).ll := by
        rw [← hr]; exact List.mem_cons_of_mem _ (List.mem_append_right _ hx)
      rcases hsz x hxm with hv | hv
      · rw [hv]; simp only [entry.size]; omega
      · exact hv
    have htot : usage (addEntry c key value).ll = a.Value.size + usage l' + usage r := by
      rw [← hr]
      simp only [List.cons_append, usage_cons, usage_append]
      omega
    have hsize : a.Value.size = (key.utf8ByteSize : Int) + Value.Len value := by
      rw [ha, he0]; rfl
    apply h4
    rw [h3, h6.usage_eq, hc', usage_cons]
    rw [int64_of_range (by omega) (by omega)]
    constructor <;> omega

end Keys

end LruCache
namespace LruCache

section Claims4

variable {V : Type} [Value V]

/-- C4, counterexample: on a store of budget 4, `Add("ab", v)` with a three-byte value (an
entry of 5 bytes) returns a store that does not hold exactly that entry: it is empty and
`Get("ab")` misses. -/
theorem oversized_entry_counterexample :
    ∃ c' : Cache ByteView, Add 1 (New 4 false) "ab" v3 = some c' ∧
      (4 : Int) < ("ab".utf8ByteSize : Int) + Value.Len v3 ∧
      ¬ (Len c' = 1 ∧ (Get c' "ab").2 = some v3) :=
  ⟨{ maxBytes := 4, nBytes := 0, ll := [], cache := [], OnEvicted := false, nextId := 1,
     calls := [] }, by decide, by decide, by decide⟩

/-- C4, amended: on a reachable store with a budget `maxBytes > 0` in which no value has a
negative `Len()` and whose entry sizes, the new entry included, sum to less than 2^63, after
`Add(key, value)` of an entry whose own size `len(key) + value.Len()` exceeds the budget the
store holds no entry: `Add` returns, `Len()` is 0 and `Get(key)` misses. -/
theorem oversized_entry_evicted (maxBytes : Int) (onEvicted : Bool) (c : Cache V) (key : String)
    (value : V) (hc : Reachable maxBytes onEvicted c) (hpos : 0 < maxBytes)
    (hbig : maxBytes < (key.utf8ByteSize : Int) + Value.Len value)
    (hnn : ∀ e ∈ c.ll, 0 ≤ Value.Len e.Value.value)
    (hlt : (c.ll.map (fun e => (e.Value.key.utf8ByteSize : Int) + Value.Len e.Value.value)).sum +
      ((key.utf8ByteSize : Int) + Value.Len value) < 9223372036854775808) :
    ∃ c' : Cache V, (∀ fuel, Len c + 1 ≤ fuel → Add fuel c key value = some c') ∧
      Len c' = 0 ∧ Get c' key = (c', none) := by
  have hm := hc.maxBytes_eq.1
  obtain ⟨c', h1, -, -, -, -, -, -⟩ := Add_total hc.inv (by omega) key value
  obtain ⟨hnil, h7⟩ := Add_oversized hc.inv (by rw [hm]; exact hpos) (by rw [hm]; exact hbig)
    hnn hlt (h1 _ (le_refl _))
  refine ⟨c', h1, ?_, ?_⟩
  · simp [Len, hnil]
  · apply Get_miss
    apply h7.get_none_of_not_mem
    simp [hnil, keys]

/-- Witness of C4 (amended): a nine-byte value for "ab" on the store of budget 10. -/
theorem oversized_entry_evicted_witness :
    ∃ c' : Cache ByteView, (∀ fuel, Len store2 + 1 ≤ fuel → Add fuel store2 "ab" v9 = some c') ∧
      Len c' = 0 ∧ Get c' "ab" = (c', none) :=
  oversized_entry_evicted 10 true store2 "ab" v9 store2_reachable (by decide) (by decide)
    (by decide) (by decide)

end Claims4

end LruCache
namespace LruCache

section Budget0

variable {V : Type} [Value V]

omit [Value V] in
theorem Get_calls (c : Cache V) (k : String) : (Get c k).1.calls = c.calls := by
  unfold Get; split
  · split <;> rfl
  · rfl

theorem mem_keys_addEntry {c : Cache V} (hc : Inv c) (k : String) (v : V) (k' : String) :
    k' ∈ keys (addEntry c k v).ll ↔ k' = k ∨ k' ∈ keys c.ll := by
  rw [keys_addEntry hc, List.mem_cons, hc.keys_nodup.mem_erase_iff]
  by_cases h : k' = k <;> simp [h]

theorem mem_keys_Get {c : Cache V} (hc : Inv c) (k : String) (k' : String) :
    k' ∈ keys (Get c k).1.ll ↔ k' ∈ keys c.ll := by
  by_cases hk : k ∈ keys c.ll
  · rw [keys_Get_hit hc hk, List.mem_cons, hc.keys_nodup.mem_erase_iff]
    by_cases h : k' = k
    · subst h; simp [hk]
    · simp [h]
  · rw [Get_miss (hc.get_none_of_not_mem hk)]

theorem run_cons {fuel : Nat} {c c1 : Cache V} {op : Op V} (h : step fuel c op = some c1)
    (ops : List (Op V)) : run fuel c (op :: ops) = run fuel c1 ops := by
  simp only [run, h, Option.some_bind]

/-- With no eviction needed, `Add` is its insert-or-update step: the loop body does not run. -/
theorem Add_no_eviction (fuel : Nat) (c : Cache V) (key : String) (value : V)
    (h : c.maxBytes = 0 ∨ (addEntry c key value).nBytes ≤ c.maxBytes) :
    Add fuel c key value = some (addEntry c key value) := by
  apply evictLoop_done
  rw [addEntry_maxBytes]
  omega

/-- A store of budget 0 under `Add` and `Get`: every call returns, nothing is evicted, and the
keys held are the keys there at the start and the keys added. -/
theorem run_budget0 (fuel : Nat) (ops : List (Op V)) (hops : ∀ op ∈ ops, op ≠ Op.removeOldest)
    (c : Cache V) (hc : Inv c) (h0 : c.maxBytes = 0) :
    ∃ c' : Cache V, run fuel c ops = some c' ∧ Inv c' ∧ c'.maxBytes = 0 ∧ c'.calls = c.calls ∧
      ∀ k, k ∈ keys c'.ll ↔ (k ∈ keys c.ll ∨ ∃ v, Op.add k v ∈ ops) := by
  induction ops generalizing c with
  | nil => exact ⟨c, rfl, hc, h0, rfl, by simp⟩
  | cons op ops ih =>
    have hops' : ∀ o ∈ ops, o ≠ Op.removeOldest := fun o ho => hops o (List.mem_cons_of_mem _ ho)
    cases op with
    | add key value =>
      have hs : step fuel c (Op.add key value) = some (addEntry c key value) :=
        Add_no_eviction fuel c key value (Or.inl h0)
      obtain ⟨c', h1, h2, h3, h4, h5⟩ :=
        ih hops' (addEntry c key value) (hc.addEntry key value) (by rw [addEntry_maxBytes, h0])
      refine ⟨c', ?_, h2, h3, ?_, ?_⟩
      · rw [run_cons hs, h1]
      · rw [h4, addEntry_calls]
      · intro k
        rw [h5, mem_keys_addEntry hc]
        constructor
        · rintro ((rfl | h) | ⟨v, hv⟩)
          · exact Or.inr ⟨value, List.mem_cons_self _ _⟩
          · exact Or.inl h
          · exact Or.inr ⟨v, List.mem_cons_of_mem _ hv⟩
        · rintro (h | ⟨v, hv⟩)
          · exact Or.inl (Or.inr h)
          · rcases List.mem_cons.1 hv with heq | hv
            · cases heq; exact Or.inl (Or.inl rfl)
            · exact Or.inr ⟨v, hv⟩
    | get key =>
      obtain ⟨c', h1, h2, h3, h4, h5⟩ :=
        ih hops' (Get c key).1 (hc.Get key) (by rw [(Get_maxBytes c key).1, h0])
      refine ⟨c', ?_, h2, h3, ?_, ?_⟩
      · rw [run_cons (show step fuel c (Op.get key) = some (Get c key).1 from rfl), h1]
      · rw [h4, Get_calls]
      · intro k
        rw [h5, mem_keys_Get hc]
        constructor
        · rintro (h | ⟨v, hv⟩)
          · exact Or.inl h
          · exact Or.inr ⟨v, List.mem_cons_of_mem _ hv⟩
        · rintro (h | ⟨v, hv⟩)
          · exact Or.inl h
          · rcases List.mem_cons.1 hv with heq | hv
            · cases heq
            · exact Or.inr ⟨v, hv⟩
    | removeOldest => exact absurd rfl (hops _ (List.mem_cons_self _ _))

end Budget0

end LruCache
namespace LruCache

section Claims5

/-- C9, counterexample: in the scenario with budget 10 and three-byte values, the usage after
`Add("ab")`, `Add("cd")`, `Add("ef")` is 10 (each entry is charged 2 + 3 bytes), not 8. -/
theorem eviction_scenario_counterexample :
    ∃ c : Cache ByteView,
      run 1 (New 10 true) [Op.add "ab" v3, Op.add "cd" v3, Op.add "ef" v3] = some c ∧
      keys c.ll = ["ef", "cd"] ∧ c.nBytes = 10 ∧ c.nBytes ≠ 8 :=
  ⟨store3, by decide, by decide, by decide, by decide⟩

/-- C9, amended: `Add` evicts nothing (the loop body does not run, and no callback is invoked)
whenever the budget is 0 or the usage after the insert or update is at most the budget; a
store of budget 0 under `Add` and `Get` holds every key ever added; with budget 10 and values
of length 3, `Add("ab")` and `Add("cd")` give the usages 5 and 10 without eviction, and the
third `Add("ef")` evicts exactly "ab", leaving the usage 10 and the keys "ef" and "cd". -/
theorem eviction_trigger :
    (∀ (V : Type) [Value V] (fuel : Nat) (c : Cache V) (key : String) (value : V),
      (c.maxBytes = 0 ∨ (addEntry c key value).nBytes ≤ c.maxBytes) →
      Add fuel c key value = some (addEntry c key value) ∧
      (addEntry c key value).calls = c.calls) ∧
    (∀ (V : Type) [Value V] (onEvicted : Bool) (fuel : Nat) (ops : List (Op V)),
      (∀ op ∈ ops, op ≠ Op.removeOldest) →
      ∃ c : Cache V, run fuel (New 0 onEvicted) ops = some c ∧ c.calls = [] ∧
        ∀ k, k ∈ keys c.ll ↔ ∃ v, Op.add k v ∈ ops) ∧
    (run 0 (New 10 true) [Op.add "ab" v3] = some store1 ∧ store1.nBytes = 5 ∧
      store1.calls = [] ∧
      run 0 (New 10 true) [Op.add "ab" v3, Op.add "cd" v3] = some store2 ∧
      store2.nBytes = 10 ∧ store2.calls = [] ∧
      Add 0 store2 "ef" v3 = none ∧
      (∀ fuel, Add (fuel + 1) store2 "ef" v3 = some store3) ∧
      store3.nBytes = 10 ∧ keys store3.ll = ["ef", "cd"] ∧
      store3.calls.map (fun call => call.key) = ["ab"]) := by
  refine ⟨?_, ?_, ?_⟩
  · intro V _ fuel c key value h
    exact ⟨Add_no_eviction fuel c key value h, addEntry_calls c key value⟩
  · intro V _ onEvicted fuel ops hops
    obtain ⟨c, h1, -, -, h4, h5⟩ := run_budget0 fuel ops hops (New 0 onEvicted) (Inv_New _ _) rfl
    refine ⟨c, h1, h4, ?_⟩
    intro k
    rw [h5]
    simp [New, keys]
  · refine ⟨by decide, by decide, by decide, by decide, by decide, by decide, by decide, ?_,
      by decide, by decide, by decide⟩
    intro fuel
    have h : Add 1 store2 "ef" v3 = some store3 := by decide
    have := evictLoop_mono h fuel
    rw [Nat.add_comm] at this
    exact this

end Claims5

end LruCache
namespace LruCache

section Claims6

variable {V : Type} [Value V]

/-- C10 (idempotent overwrite): on a reachable store with a budget `maxBytes ≥ 0`, `Add(key,
value)` returns a state `c1`, a second `Add(key, value)` right after it returns a state `c2`,
and `c2` has the same usage and the same `Len()` as `c1`. -/
theorem idempotent_overwrite (maxBytes : Int) (onEvicted : Bool) (c : Cache V) (key : String)
    (value : V) (hc : Reachable maxBytes onEvicted c) (hm : 0 ≤ maxBytes) :
    ∃ c1 c2 : Cache V, (∀ fuel, Len c + 1 ≤ fuel → Add fuel c key value = some c1) ∧
      (∀ fuel, 1 ≤ fuel → Add fuel c1 key value = some c2) ∧
      c2.nBytes = c1.nBytes ∧ Len c2 = Len c1 := by
  have hmb := hc.maxBytes_eq.1
  obtain ⟨c1, h1, -, h3, h4, h5, h6, h7⟩ := Add_total hc.inv (by omega) key value
  obtain ⟨e0, rest, hl, he0⟩ := addEntry_head hc.inv key value
  cases hc1 : c1.ll with
  | cons a l' =>
    rw [hl, hc1] at h3
    have ha : a = e0 := (List.cons_prefix_cons.1 h3).1
    have hak : a.Value.key = key := by rw [ha, he0]
    have hav : a.Value.value = value := by rw [ha, he0]
    have hadd : addEntry c1 key value = c1 := by
      have := @addEntry_hit V _ c1 h7 [] l' a (by simpa using hc1) value
      rw [hak, hav] at this
      rw [this]
      have hae : (⟨a.id, ⟨key, value⟩⟩ : Element V) = a := by
        rw [← hak, ← hav]
      simp only [List.nil_append, hae, ← hc1, sub_self, add_zero, h7.nBytes_int64]
    refine ⟨c1, c1, h1, ?_, rfl, rfl⟩
    intro fuel _
    unfold Add
    rw [hadd]
    exact evictLoop_done h5 fuel
  | nil =>
    have hk : key ∉ keys c1.ll := by simp [hc1, keys]
    have hg := h7.get_none_of_not_mem hk
    have hA := addEntry_miss hg value
    have hiA := h7.addEntry key value
    have hAl : (addEntry c1 key value).ll = [] ++ [⟨c1.nextId, ⟨key, value⟩⟩] := by
      rw [hA, hc1]; rfl
    have hn1 : c1.nBytes = 0 := by rw [h7.usage_eq, hc1, usage_nil, int64_zero]
    have hbig := h6 1 (by rw [hc1]; simp) (by rw [hl]; simp)
    rw [hl] at hbig
    simp only [List.take_succ_cons, List.take_zero, usage_cons, usage_nil, he0, entry.size]
      at hbig
    have hguard : (addEntry c1 key value).maxBytes ≠ 0 ∧
        (addEntry c1 key value).maxBytes < (addEntry c1 key value).nBytes := by
      rw [addEntry_maxBytes, h4]
      have : (addEntry c1 key value).nBytes =
          int64 (c1.nBytes + ((key.utf8ByteSize : Int) + Value.Len value)) := by rw [hA]
      rw [this, hn1]
      constructor
      · exact hbig.1
      · have := hbig.2
        rw [add_zero] at this
        rw [zero_add]
        exact this
    have hR := RemoveOldest_snoc hiA hAl
    have hRl : (RemoveOldest (addEntry c1 key value)).ll = [] := by rw [hR]
    have hiR := hiA.RemoveOldest
    have hRn : (RemoveOldest (addEntry c1 key value)).nBytes = 0 := by
      rw [hiR.usage_eq, hRl, usage_nil, int64_zero]
    have hdone : ¬ ((RemoveOldest (addEntry c1 key value)).maxBytes ≠ 0 ∧
        (RemoveOldest (addEntry c1 key value)).maxBytes <
          (RemoveOldest (addEntry c1 key value)).nBytes) := by
      rw [RemoveOldest_maxBytes, addEntry_maxBytes, h4, hmb, hRn]
      omega
    refine ⟨c1, RemoveOldest (addEntry c1 key value), h1, ?_, ?_, ?_⟩
    · intro fuel hf
      obtain ⟨f, rfl⟩ : ∃ f, fuel = f + 1 := ⟨fuel - 1, by omega⟩
      unfold Add
      rw [evictLoop_succ hguard]
      exact evictLoop_done hdone f
    · rw [hRn, hn1]
    · simp [Len, hRl, hc1]

/-- Witness of C10: a nine-byte value for "ab" added twice to the store of budget 10. -/
theorem idempotent_overwrite_witness :
    ∃ c1 c2 : Cache ByteView, (∀ fuel, Len store2 + 1 ≤ fuel → Add fuel store2 "ab" v9 = some c1) ∧
      (∀ fuel, 1 ≤ fuel → Add fuel c1 "ab" v9 = some c2) ∧
      c2.nBytes = c1.nBytes ∧ Len c2 = Len c1 :=
  idempotent_overwrite 10 true store2 "ab" v9 store2_reachable (by decide)

end Claims6

end LruCache
namespace LruCache

section Histories

variable {V : Type} [Value V]

theorem lastTouchRev_le (log : List (Option String)) (k : String) :
    lastTouchRev log k ≤ log.length := by
  induction log with
  | nil => simp [lastTouchRev]
  | cons t log ih =>
    simp only [lastTouchRev, List.length_cons]
    split <;> omega

theorem lastTouch_le (log : List (Option String)) (k : String) :
    lastTouch log k ≤ log.length := by
  have := lastTouchRev_le log.reverse k
  simpa [lastTouch] using this

theorem lastTouch_append_touch (log : List (Option String)) (k : String) :
    lastTouch (log ++ [some k]) k = log.length + 1 := by
  simp [lastTouch, lastTouchRev]

theorem lastTouch_append_other (log : List (Option String)) (t : Option String) (k : String)
    (h : t ≠ some k) : lastTouch (log ++ [t]) k = lastTouch log k := by
  simp [lastTouch, lastTouchRev, h]

theorem RecencySorted.sublist {log : List (Option String)} {l l' : List String}
    (h : RecencySorted log l) (hs : List.Sublist l' l) : RecencySorted log l' :=
  ⟨h.1.sublist hs, fun k hk => h.2 k (hs.subset hk)⟩

theorem RecencySorted.idle {log : List (Option String)} {l : List String}
    (h : RecencySorted log l) : RecencySorted (log ++ [none]) l := by
  have e : ∀ k, lastTouch (log ++ [none]) k = lastTouch log k :=
    fun k => lastTouch_append_other log none k (by simp)
  constructor
  · simpa only [e] using h.1
  · intro k hk; rw [e]; exact h.2 k hk

theorem RecencySorted.after_touch {log : List (Option String)} {l : List String}
    (h : RecencySorted log l) (hn : l.Nodup) (k : String) :
    RecencySorted (log ++ [some k]) (k :: l.erase k) := by
  have e : ∀ a ∈ l.erase k, lastTouch (log ++ [some k]) a = lastTouch log a := by
    intro a ha
    apply lastTouch_append_other
    intro heq
    have := (hn.mem_erase_iff.1 ha).1
    exact this (Option.some.inj heq).symm
  have hsub := h.sublist (List.erase_sublist k l)
  constructor
  · rw [List.pairwise_cons]
    constructor
    · intro a ha
      rw [e a ha, lastTouch_append_touch]
      have := lastTouch_le log a
      omega
    · apply hsub.1.imp_of_mem
      intro a b ha hb hab
      rw [e a ha, e b hb]; exact hab
  · intro a ha
    rcases List.mem_cons.1 ha with rfl | ha
    · rw [lastTouch_append_touch]; omega
    · rw [e a ha]; exact hsub.2 a ha

omit [Value V] in
theorem lastAdded_append_add (ops : List (Op V)) (k' : String) (v : V) (k : String) :
    lastAdded (ops ++ [Op.add k' v]) k = if k' = k then some v else lastAdded ops k := by
  induction ops with
  | nil => simp [lastAdded]
  | cons o ops ih =>
    simp only [List.cons_append, lastAdded, List.append_eq, ih]
    by_cases hk : k' = k <;> simp [hk]

omit [Value V] in
theorem lastAdded_append_get (ops : List (Op V)) (k' : String) (k : String) :
    lastAdded (ops ++ [Op.get k']) k = lastAdded ops k := by
  induction ops with
  | nil => simp [lastAdded]
  | cons o ops ih => simp only [List.cons_append, lastAdded, List.append_eq, ih]

omit [Value V] in
theorem lastAdded_append_removeOldest (ops : List (Op V)) (k : String) :
    lastAdded (ops ++ [Op.removeOldest]) k = lastAdded ops k := by
  induction ops with
  | nil => simp [lastAdded]
  | cons o ops ih => simp only [List.cons_append, lastAdded, List.append_eq, ih]

/-- The result of the loop, whenever it returns: a prefix of the list is kept, the shortest one
that is within the budget. -/
theorem evictLoop_result {fuel : Nat} {c c' : Cache V} (hc : Inv c)
    (h : evictLoop fuel c = some c') :
    c'.ll <+: c.ll ∧ c'.maxBytes = c.maxBytes ∧
      ¬ (c'.maxBytes ≠ 0 ∧ c'.maxBytes < c'.nBytes) ∧
      (∀ m, c'.ll.length < m → m ≤ c.ll.length →
        c.maxBytes ≠ 0 ∧ c.maxBytes < int64 (usage (c.ll.take m))) ∧
      Inv c' := by
  induction fuel generalizing c with
  | zero =>
    by_cases hg : c.maxBytes ≠ 0 ∧ c.maxBytes < c.nBytes
    · rw [evictLoop_zero hg] at h; exact Option.noConfusion h
    · rw [evictLoop_done hg] at h; cases h
      exact ⟨List.prefix_refl _, rfl, hg, fun m h1 h2 => by omega, hc⟩
  | succ n ih =>
    by_cases hg : c.maxBytes ≠ 0 ∧ c.maxBytes < c.nBytes
    · rw [evictLoop_succ hg] at h
      obtain ⟨h2, h3, h4, h5, h6⟩ := ih hc.RemoveOldest h
      rw [RemoveOldest_maxBytes] at h3 h5
      rcases List.eq_nil_or_concat c.ll with hl | ⟨l, e, hl⟩
      · rw [RemoveOldest_nil hl] at h2 h5
        exact ⟨h2, h3, h4, h5, h6⟩
      · rw [List.concat_eq_append] at hl
        have hrl : (RemoveOldest c).ll = l := by rw [RemoveOldest_snoc hc hl]
        rw [hrl] at h2 h5
        refine ⟨?_, h3, h4, ?_, h6⟩
        · rw [hl]; exact h2.trans (List.prefix_append _ _)
        · intro m hm1 hm2
          by_cases hmn : m ≤ l.length
          · rw [hl, List.take_append_of_le_length hmn]
            exact h5 m hm1 hmn
          · have : m = c.ll.length := by
              rw [hl] at hm2 ⊢
              simp only [List.length_append, List.length_singleton] at hm2 ⊢
              omega
            rw [this, List.take_length, ← hc.usage_eq]
            exact hg
    · rw [evictLoop_done hg] at h; cases h
      exact ⟨List.prefix_refl _, rfl, hg, fun m h1 h2 => by omega, hc⟩

theorem RemoveOldest_isPrefix {c : Cache V} (hc : Inv c) : (RemoveOldest c).ll <+: c.ll := by
  rcases List.eq_nil_or_concat c.ll with hl | ⟨l, e, hl⟩
  · rw [RemoveOldest_nil hl]
  · rw [List.concat_eq_append] at hl
    rw [RemoveOldest_snoc hc hl, hl]
    exact List.prefix_append _ _

omit [Value V] in
theorem keys_of_isPrefix {l l' : List (Element V)} (h : l' <+: l) :
    List.Sublist (keys l') (keys l) :=
  h.sublist.map _

theorem mem_addEntry {c : Cache V} (hc : Inv c) (k : String) (v : V) (x : Element V)
    (hx : x ∈ (addEntry c k v).ll) : x.Value = ⟨k, v⟩ ∨ (x ∈ c.ll ∧ x.Value.key ≠ k) := by
  cases h : mapGet c.cache k with
  | some p =>
    obtain ⟨l1, e, l2, hl, -, rfl⟩ := hc.split h
    rw [addEntry_hit hc hl] at hx
    have hk := hc.keys_nodup
    rw [hl] at hk
    rcases List.mem_cons.1 hx with rfl | hx
    · exact Or.inl rfl
    · right
      refine ⟨?_, keys_split_ne hk x hx⟩
      rw [hl]
      rcases List.mem_append.1 hx with hx | hx
      · exact List.mem_append_left _ hx
      · exact List.mem_append_right _ (List.mem_cons_of_mem _ hx)
  | none =>
    rw [addEntry_miss h] at hx
    rcases List.mem_cons.1 hx with rfl | hx
    · exact Or.inl rfl
    · right
      refine ⟨hx, ?_⟩
      intro heq
      exact hc.get_none h (List.mem_map.2 ⟨x, hx, heq⟩)

theorem mem_Get {c : Cache V} (hc : Inv c) (k : String) (x : Element V)
    (hx : x ∈ (Get c k).1.ll) : x ∈ c.ll := by
  cases h : mapGet c.cache k with
  | some p =>
    obtain ⟨l1, e, l2, hl, -, rfl⟩ := hc.split h
    rw [Get_hit hc hl] at hx
    rw [hl]
    rcases List.mem_cons.1 hx with rfl | hx
    · exact List.mem_append_right _ (List.mem_cons_self _ _)
    · rcases List.mem_append.1 hx with hx | hx
      · exact List.mem_append_left _ hx
      · exact List.mem_append_right _ (List.mem_cons_of_mem _ hx)
  | none =>
    rw [Get_miss h] at hx; exact hx

/-- One call keeps the list in order of last touch and keeps the values of the last `Add`s. -/
theorem step_history {fuel : Nat} {c c' : Cache V} {op : Op V} (hc : Inv c)
    (hs : step fuel c op = some c') {log : List (Option String)} {ops : List (Op V)}
    (hr : RecencySorted log (keys c.ll)) (hh : History ops c.ll) :
    Inv c' ∧ RecencySorted (log ++ [touched c op]) (keys c'.ll) ∧ History (ops ++ [op]) c'.ll := by
  cases op with
  | add key value =>
    have hs' : evictLoop fuel (addEntry c key value) = some c' := hs
    have hi := hc.addEntry key value
    obtain ⟨h2, -, -, -, h6⟩ := evictLoop_result hi hs'
    refine ⟨h6, ?_, ?_⟩
    · have := hr.after_touch hc.keys_nodup key
      rw [← keys_addEntry hc key value] at this
      exact this.sublist (keys_of_isPrefix h2)
    · intro x hx
      rw [lastAdded_append_add]
      rcases mem_addEntry hc key value x (h2.subset hx) with hv | ⟨hm, hk⟩
      · simp [hv]
      · have : ¬ key = x.Value.key := fun h => hk h.symm
        simp only [this, if_false]
        exact hh x hm
  | get key =>
    have hs' : (Get c key).1 = c' := Option.some.inj hs
    subst hs'
    refine ⟨hc.Get key, ?_, ?_⟩
    · by_cases hk : key ∈ keys c.ll
      · have ht : touched c (Op.get key) = some key := by
          simp only [touched, hk, if_true]
        rw [ht, keys_Get_hit hc hk]
        exact hr.after_touch hc.keys_nodup key
      · have ht : touched c (Op.get key) = none := by
          simp only [touched, hk, if_false]
        rw [ht, Get_miss (hc.get_none_of_not_mem hk)]
        exact hr.idle
    · intro x hx
      rw [lastAdded_append_get]
      exact hh x (mem_Get hc key x hx)
  | removeOldest =>
    have hs' : RemoveOldest c = c' := Option.some.inj hs
    subst hs'
    refine ⟨hc.RemoveOldest, ?_, ?_⟩
    · exact (hr.idle).sublist (keys_of_isPrefix (RemoveOldest_isPrefix hc))
    · intro x hx
      rw [lastAdded_append_removeOldest]
      exact hh x ((RemoveOldest_isPrefix hc).subset hx)

theorem touchLog_cons {fuel : Nat} {c c1 : Cache V} {op : Op V} (h : step fuel c op = some c1)
    (ops : List (Op V)) :
    touchLog fuel c (op :: ops) = touched c op :: touchLog fuel c1 ops := by
  simp only [touchLog, h]

/-- A sequence of calls keeps the list in order of last touch and keeps the values of the last
`Add`s. -/
theorem run_history {fuel : Nat} (ops : List (Op V)) {c c' : Cache V} (hc : Inv c)
    (hs : run fuel c ops = some c') (log : List (Option String)) (past : List (Op V))
    (hr : RecencySorted log (keys c.ll)) (hh : History past c.ll) :
    Inv c' ∧ RecencySorted (log ++ touchLog fuel c ops) (keys c'.ll) ∧
      History (past ++ ops) c'.ll := by
  induction ops generalizing c log past with
  | nil =>
    cases hs
    simpa [touchLog] using ⟨hc, hr, hh⟩
  | cons op ops ih =>
    cases h1 : step fuel c op with
    | none => simp [run, h1] at hs
    | some c1 =>
      rw [run_cons h1] at hs
      obtain ⟨a, b, d⟩ := step_history hc h1 hr hh
      have := ih a hs _ _ b d
      rw [touchLog_cons h1]
      simpa using this

end Histories

end LruCache
namespace LruCache

section Runs

variable {V : Type} [Value V]

theorem Get_Len {c : Cache V} (hc : Inv c) (k : String) : Len (Get c k).1 = Len c := by
  cases h : mapGet c.cache k with
  | some p =>
    obtain ⟨l1, e, l2, hl, -, rfl⟩ := hc.split h
    rw [Get_hit hc hl]
    simp only [Len, hl, List.length_cons, List.length_append]
    omega
  | none => rw [Get_miss h]

/-- A sequence of calls on a store with a non-negative budget returns, for any fuel of at
least the number of entries plus the number of calls. -/
theorem run_total (ops : List (Op V)) (c : Cache V) (fuel : Nat) (hc : Inv c)
    (hm : 0 ≤ c.maxBytes) (hf : Len c + ops.length ≤ fuel) :
    ∃ c' : Cache V, run fuel c ops = some c' := by
  induction ops generalizing c with
  | nil => exact ⟨c, rfl⟩
  | cons op ops ih =>
    simp only [List.length_cons] at hf
    cases op with
    | add key value =>
      obtain ⟨c1, h1, -, h3, h4, -, -, h7⟩ := Add_total hc hm key value
      have hlen : Len c1 ≤ Len c + 1 :=
        le_trans h3.length_le (addEntry_length_le hc key value)
      have hs : step fuel c (Op.add key value) = some c1 := h1 fuel (by omega)
      rw [run_cons hs]
      exact ih c1 h7 (by rw [h4]; exact hm) (by omega)
    | get key =>
      have hs : step fuel c (Op.get key) = some (Get c key).1 := rfl
      rw [run_cons hs]
      exact ih _ (hc.Get key) (by rw [(Get_maxBytes c key).1]; exact hm)
        (by rw [Get_Len hc]; omega)
    | removeOldest =>
      have hs : step fuel c (Op.removeOldest) = some (RemoveOldest c) := rfl
      have hlen : Len (RemoveOldest c) ≤ Len c := (RemoveOldest_isPrefix hc).length_le
      rw [run_cons hs]
      exact ih _ hc.RemoveOldest (by rw [RemoveOldest_maxBytes]; exact hm) (by omega)

/-- The result of a sequence of calls does not depend on the fuel. -/
theorem run_unique (ops : List (Op V)) {c a b : Cache V} {f1 f2 : Nat}
    (h1 : run f1 c ops = some a) (h2 : run f2 c ops = some b) : a = b := by
  induction ops generalizing c with
  | nil =>
    simp only [run] at h1 h2
    rw [← Option.some.inj h1, ← Option.some.inj h2]
  | cons op ops ih =>
    cases s1 : step f1 c op with
    | none => simp [run, s1] at h1
    | some c1 =>
      cases s2 : step f2 c op with
      | none => simp [run, s2] at h2
      | some c2 =>
        rw [run_cons s1] at h1
        rw [run_cons s2] at h2
        have : c1 = c2 := by
          cases op with
          | add key value => exact evictLoop_unique s1 s2
          | get key => exact (Option.some.inj s1).symm.trans (Option.some.inj s2)
          | removeOldest => exact (Option.some.inj s1).symm.trans (Option.some.inj s2)
        subst this
        exact ih h1 h2

theorem run_inv (ops : List (Op V)) {c c' : Cache V} {fuel : Nat} (hc : Inv c)
    (h : run fuel c ops = some c') : Inv c' ∧ c'.maxBytes = c.maxBytes := by
  induction ops generalizing c with
  | nil => cases h; exact ⟨hc, rfl⟩
  | cons op ops ih =>
    cases s1 : step fuel c op with
    | none => simp [run, s1] at h
    | some c1 =>
      rw [run_cons s1] at h
      have : Inv c1 ∧ c1.maxBytes = c.maxBytes := by
        cases op with
        | add key value =>
          refine ⟨hc.Add s1, ?_⟩
          have := (evictLoop_maxBytes s1).1
          rw [addEntry_maxBytes] at this
          exact this
        | get key =>
          cases s1
          exact ⟨hc.Get key, (Get_maxBytes c key).1⟩
        | removeOldest =>
          cases s1
          exact ⟨hc.RemoveOldest, RemoveOldest_maxBytes c⟩
      obtain ⟨a, b⟩ := ih this.1 h
      exact ⟨a, b.trans this.2⟩

omit [Value V] in
theorem RecencySorted_nil (log : List (Option String)) : RecencySorted log [] :=
  ⟨List.Pairwise.nil, fun k hk => absurd hk (List.not_mem_nil k)⟩

end Runs

end LruCache
namespace LruCache

section Claims7

variable {V : Type} [Value V]

/-- C7 (store Get): in the state `c` reached from `New` by a sequence `ops` of calls, if `key`
is live then `Get(key)` returns the value of the last `Add` of `key` in `ops` with `ok = true`,
and the new state is `c` with the element of `key` moved to the front of the list: the other
elements keep their order, and the usage, the index, the values and the number of entries are
unchanged. If `key` is not live, `Get(key)` returns `(nil, false)` and the state is unchanged. -/
theorem Get_contract (maxBytes : Int) (onEvicted : Bool) (fuel : Nat) (ops : List (Op V))
    (c : Cache V) (key : String) (h : run fuel (New maxBytes onEvicted) ops = some c) :
    (key ∈ keys c.ll → ∃ l1 e l2, c.ll = l1 ++ e :: l2 ∧ e.Value.key = key ∧
        lastAdded ops key = some e.Value.value ∧
        Get c key = ({ c with ll := e :: (l1 ++ l2) }, some e.Value.value) ∧
        Len (Get c key).1 = Len c) ∧
    (key ∉ keys c.ll → Get c key = (c, none)) := by
  obtain ⟨hi, -, hh⟩ := run_history ops (Inv_New maxBytes onEvicted) h [] []
    (RecencySorted_nil _) (fun e he => absurd he (List.not_mem_nil e))
  constructor
  · intro hk
    obtain ⟨p, hp⟩ := (hi.mem_keys_iff key).1 hk
    obtain ⟨l1, e, l2, hl, -, rfl⟩ := hi.split hp
    refine ⟨l1, e, l2, hl, rfl, ?_, Get_hit hi hl, Get_Len hi _⟩
    have := hh e (by rw [hl]; exact List.mem_append_right _ (List.mem_cons_self _ _))
    simpa using this
  · intro hk
    exact Get_miss (hi.get_none_of_not_mem hk)

/-- Witness of C7: after `Add("ab")` and `Add("cd")` on the store of budget 10. -/
theorem Get_contract_witness :
    ("ab" ∈ keys store2.ll → ∃ l1 e l2, store2.ll = l1 ++ e :: l2 ∧ e.Value.key = "ab" ∧
        lastAdded [Op.add "ab" v3, Op.add "cd" v3] "ab" = some e.Value.value ∧
        Get store2 "ab" = ({ store2 with ll := e :: (l1 ++ l2) }, some e.Value.value) ∧
        Len (Get store2 "ab").1 = Len store2) ∧
    ("ab" ∉ keys store2.ll → Get store2 "ab" = (store2, none)) :=
  Get_contract 10 true 0 [Op.add "ab" v3, Op.add "cd" v3] store2 "ab" (by decide)

end Claims7

end LruCache
namespace LruCache

section Claims8

variable {V : Type} [Value V]

/-- In a list in order of last touch, `RemoveOldest` removes the key with the oldest touch. -/
theorem oldest_at_back {c : Cache V} (hi : Inv c) {log : List (Option String)}
    (hr : RecencySorted log (keys c.ll)) : OldestAtBack log c := by
  intro l e hl
  refine ⟨by rw [RemoveOldest_snoc hi hl], ?_⟩
  have hp := hr.1
  rw [hl, keys_append, List.pairwise_append] at hp
  intro k hk
  rw [hl, keys_append, List.mem_append] at hk
  rcases hk with hk | hk
  · exact Nat.le_of_lt (hp.2.2 k hk e.Value.key (by simp [keys]))
  · simp only [keys, List.map_cons, List.map_nil, List.mem_singleton] at hk
    rw [hk]

/-- An `Add` that returns has evicted the shortest suffix, in order of last touch, that brings
the usage within the budget. -/
theorem Add_evicts_lru_suffix {c c' : Cache V} {fuel : Nat} {key : String} {value : V}
    (hi : Inv c) {log : List (Option String)} (hr : RecencySorted log (keys c.ll))
    (ha : Add fuel c key value = some c') : ∃ r, EvictsLruSuffix log c key value c' r := by
  have hi0 := hi.addEntry key value
  obtain ⟨h2, h3, h4, h5, h6⟩ := evictLoop_result hi0 ha
  rw [addEntry_maxBytes] at h3 h5
  have hs := hr.after_touch hi.keys_nodup key
  rw [← keys_addEntry hi key value] at hs
  obtain ⟨r, hr'⟩ := h2
  refine ⟨r, keys_addEntry hi key value, hs, hr'.symm, ?_, ?_, h6.usage_eq, h3, ?_⟩
  · have hp := hs.1
    rw [← hr', keys_append, List.pairwise_append] at hp
    intro x hx y hy
    exact hp.2.2 _ (List.mem_map_of_mem _ hx) _ (List.mem_map_of_mem _ hy)
  · by_cases hz : c'.maxBytes = 0
    · exact Or.inl hz
    · right
      by_contra hlt
      exact h4 ⟨hz, by omega⟩
  · intro r1 r2 hrr hne
    have hlen : 0 < r1.length := List.length_pos.2 hne
    have := h5 ((c'.ll ++ r1).length) (by simp only [List.length_append]; omega)
      (by rw [← hr', hrr]; simp only [List.length_append]; omega)
    rw [← hr', hrr, ← List.append_assoc, List.take_left'] at this
    · exact this
    · rfl

/-- C3 (recency correctness): for a store created by `New` and a sequence `ops` of calls, let
`log` be the keys the calls touched (the key of each `Add`, the key of each `Get` whose key was
live). With a budget that is not negative the calls return, for every fuel of at least their
number, a state `c` such that: the keys of the list, front first, are in strictly decreasing
order of last touch; `RemoveOldest` removes the back element, whose key has the oldest last
touch of all live keys; and every `Add(key, value)` returns a state `c'`, having brought `key`
to the front and then removed a suffix `r` of the list, every key of which was touched before
every key that is kept, such that what is kept is within the budget (or the budget is 0) and no
shorter suffix would do. With any budget, the same holds of every state and of every result of
`Add` that the calls return. -/
theorem recency_correct (maxBytes : Int) (onEvicted : Bool) (ops : List (Op V)) :
    (0 ≤ maxBytes → ∃ c : Cache V,
      (∀ fuel, ops.length ≤ fuel → run fuel (New maxBytes onEvicted) ops = some c) ∧
      RecencySorted (touchLog ops.length (New maxBytes onEvicted) ops) (keys c.ll) ∧
      OldestAtBack (touchLog ops.length (New maxBytes onEvicted) ops) c ∧
      ∀ (key : String) (value : V), ∃ (c' : Cache V) (r : List (Element V)),
        (∀ fuel, Len c + 1 ≤ fuel → Add fuel c key value = some c') ∧
        EvictsLruSuffix (touchLog ops.length (New maxBytes onEvicted) ops) c key value c' r) ∧
    (∀ (fuel : Nat) (c : Cache V), run fuel (New maxBytes onEvicted) ops = some c →
      RecencySorted (touchLog fuel (New maxBytes onEvicted) ops) (keys c.ll) ∧
      OldestAtBack (touchLog fuel (New maxBytes onEvicted) ops) c ∧
      ∀ (fuel2 : Nat) (key : String) (value : V) (c' : Cache V),
        Add fuel2 c key value = some c' →
        ∃ r, EvictsLruSuffix (touchLog fuel (New maxBytes onEvicted) ops) c key value c' r) := by
  have general : ∀ (fuel : Nat) (c : Cache V), run fuel (New maxBytes onEvicted) ops = some c →
      Inv c ∧ c.maxBytes = maxBytes ∧
      RecencySorted (touchLog fuel (New maxBytes onEvicted) ops) (keys c.ll) := by
    intro fuel c h
    obtain ⟨hi, hr, -⟩ := run_history ops (Inv_New maxBytes onEvicted) h [] []
      (RecencySorted_nil _) (fun e he => absurd he (List.not_mem_nil e))
    rw [List.nil_append] at hr
    exact ⟨hi, (run_inv ops (Inv_New maxBytes onEvicted) h).2, hr⟩
  constructor
  · intro hm
    obtain ⟨c, h0⟩ := run_total ops (New maxBytes onEvicted) ops.length (Inv_New _ _) hm
      (by simp [Len, New])
    obtain ⟨hi, hmb, hr⟩ := general _ c h0
    refine ⟨c, ?_, hr, oldest_at_back hi hr, ?_⟩
    · intro fuel hf
      obtain ⟨c2, h2⟩ := run_total ops (New maxBytes onEvicted) fuel (Inv_New _ _) hm
        (by simpa [Len, New] using hf)
      rw [h2, run_unique ops h2 h0]
    · intro key value
      obtain ⟨c', h1, -⟩ := Add_total hi (by rw [hmb]; exact hm) key value
      obtain ⟨r, hr'⟩ := Add_evicts_lru_suffix hi hr (h1 _ (le_refl _))
      exact ⟨c', r, h1, hr'⟩
  · intro fuel c h
    obtain ⟨hi, -, hr⟩ := general fuel c h
    exact ⟨hr, oldest_at_back hi hr, fun fuel2 key value c' ha =>
      Add_evicts_lru_suffix hi hr ha⟩

/-- Witness of C3: budget 10, `Add("ab")`, `Add("cd")`, `Get("ab")`, `Add("ef")`: the calls
return the store that holds "ef" and "ab", in this order, the last `Add` having evicted "cd";
the touch log is "ab", "cd", "ab", "ef". -/
theorem recency_correct_witness :
    touchLog 4 (New 10 true) [Op.add "ab" v3, Op.add "cd" v3, Op.get "ab", Op.add "ef" v3] =
        [some "ab", some "cd", some "ab", some "ef"] ∧
      run 4 (New 10 true) [Op.add "ab" v3, Op.add "cd" v3, Op.get "ab", Op.add "ef" v3] =
        some store4 ∧
      keys store4.ll = ["ef", "ab"] ∧
      ∃ c : Cache ByteView,
        (∀ fuel, [Op.add "ab" v3, Op.add "cd" v3, Op.get "ab", Op.add "ef" v3].length ≤ fuel →
          run fuel (New 10 true)
            [Op.add "ab" v3, Op.add "cd" v3, Op.get "ab", Op.add "ef" v3] = some c) ∧
        RecencySorted (touchLog
          [Op.add "ab" v3, Op.add "cd" v3, Op.get "ab", Op.add "ef" v3].length (New 10 true)
          [Op.add "ab" v3, Op.add "cd" v3, Op.get "ab", Op.add "ef" v3]) (keys c.ll) :=
  ⟨by decide, by decide, by decide,
    let ⟨c, h1, h2, _⟩ :=
      (recency_correct 10 true
        [Op.add "ab" v3, Op.add "cd" v3, Op.get "ab", Op.add "ef" v3]).1 (by decide)
    ⟨c, h1, h2⟩⟩

end Claims8

end LruCache
namespace LruCache

section LoopBounds

variable {V : Type} [Value V]

/-- The loop body runs once for each element the loop removes: a result needs at least that
much fuel. -/
theorem evictLoop_needs {fuel : Nat} {c c' : Cache V} (hc : Inv c)
    (h : evictLoop fuel c = some c') : c.ll.length ≤ c'.ll.length + fuel := by
  induction fuel generalizing c with
  | zero =>
    by_cases hg : c.maxBytes ≠ 0 ∧ c.maxBytes < c.nBytes
    · rw [evictLoop_zero hg] at h; exact Option.noConfusion h
    · rw [evictLoop_done hg] at h; cases h; omega
  | succ n ih =>
    by_cases hg : c.maxBytes ≠ 0 ∧ c.maxBytes < c.nBytes
    · rw [evictLoop_succ hg] at h
      have := ih hc.RemoveOldest h
      rcases List.eq_nil_or_concat c.ll with hl | ⟨l, e, hl⟩
      · rw [RemoveOldest_nil hl] at this; omega
      · rw [List.concat_eq_append] at hl
        have hrl : (RemoveOldest c).ll = l := by rw [RemoveOldest_snoc hc hl]
        rw [hrl] at this
        rw [hl]
        simp only [List.length_append, List.length_singleton]
        omega
    · rw [evictLoop_done hg] at h; cases h; omega

theorem usage_isPrefix_le {l l' : List (Element V)} (h : l' <+: l)
    (hnn : ∀ e ∈ l, 0 ≤ e.Value.size) : 0 ≤ usage l' ∧ usage l' ≤ usage l := by
  obtain ⟨r, rfl⟩ := h
  have h1 : 0 ≤ usage l' := usage_nonneg (fun e he => hnn e (List.mem_append_left _ he))
  have h2 : 0 ≤ usage r := usage_nonneg (fun e he => hnn e (List.mem_append_right _ he))
  rw [usage_append]
  omega

/-- With a negative budget, on a store without negative sizes whose sizes sum to less than
2^63, the loop never stops: the usage is never negative, so the guard holds whatever the list,
and every amount of fuel runs out. -/
theorem evictLoop_negative {c : Cache V} (hc : Inv c) (hm : c.maxBytes < 0)
    (hnn : ∀ e ∈ c.ll, 0 ≤ e.Value.size) (hlt : usage c.ll < 9223372036854775808)
    (fuel : Nat) : evictLoop fuel c = none := by
  induction fuel generalizing c with
  | zero =>
    apply evictLoop_zero
    have := usage_nonneg hnn
    rw [hc.usage_eq, int64_of_range (by omega) hlt]
    constructor <;> omega
  | succ n ih =>
    have hg : c.maxBytes ≠ 0 ∧ c.maxBytes < c.nBytes := by
      have := usage_nonneg hnn
      rw [hc.usage_eq, int64_of_range (by omega) hlt]
      constructor <;> omega
    rw [evictLoop_succ hg]
    have hp := RemoveOldest_isPrefix hc
    have hu := usage_isPrefix_le hp hnn
    exact ih hc.RemoveOldest (by rw [RemoveOldest_maxBytes]; exact hm)
      (fun e he => hnn e (hp.subset he)) (by omega)

/-- With a negative budget, an `Add` of a value without negative `Len()` on a store without
negative `Len()` whose sizes, the new entry included, sum to less than 2^63 never returns. -/
theorem Add_negative {c : Cache V} (hc : Inv c) (hm : c.maxBytes < 0) (key : String) (value : V)
    (hnn : ∀ e ∈ c.ll, 0 ≤ Value.Len e.Value.value) (hv : 0 ≤ Value.Len value)
    (hlt : usage c.ll + ((key.utf8ByteSize : Int) + Value.Len value) < 9223372036854775808)
    (fuel : Nat) : Add fuel c key value = none := by
  obtain ⟨hle, hsz⟩ := addEntry_usage_le hc key value hnn
  apply evictLoop_negative (hc.addEntry key value) (by rw [addEntry_maxBytes]; exact hm)
  · intro x hx
    rcases hsz x hx with hx | hx
    · rw [hx]; simp only [entry.size]; omega
    · exact hx
  · omega

theorem index_nil_of_list_nil {c : Cache V} (hc : Inv c) (hl : c.ll = []) : c.cache = [] := by
  cases hm : c.cache with
  | nil => rfl
  | cons a m =>
    exfalso
    have h1 : mapGet c.cache a.1 = some a.2 := by
      rw [hm]; simp [mapGet]
    obtain ⟨e, he, -, -⟩ := (hc.index_iff a.1 a.2).1 h1
    rw [hl] at he
    exact List.not_mem_nil e he

/-- The keys of the index and the keys of the list are the same keys. -/
theorem Inv.index_keys_perm {c : Cache V} (hc : Inv c) :
    List.Perm (c.cache.map Prod.fst) (keys c.ll) := by
  rw [List.perm_ext_iff_of_nodup hc.index_nodup hc.keys_nodup]
  intro k
  rw [← mapGet_isSome_iff, hc.mem_keys_iff]

end LoopBounds

end LruCache
namespace LruCache

section Claims9

variable {V : Type} [Value V]

/-- C18, counterexample: on a store of budget 10, after `Add("a", v)` with `v.Len() = -100`
(usage -99), `Add("k", w)` with `w.Len() = 20` adds an entry of 21 bytes, more than the
budget; the usage is then -78, nothing is evicted, the store holds two entries and `Get("k")`
hits. -/
theorem self_eviction_counterexample :
    Add 0 (New 10 false) "a" ⟨-100⟩ = some storeNeg ∧
      (10 : Int) < ("k".utf8ByteSize : Int) + Value.Len (⟨20⟩ : IntValue) ∧
      ∃ c' : Cache IntValue, Add 0 storeNeg "k" ⟨20⟩ = some c' ∧ Len c' = 2 ∧
        c'.nBytes = -78 ∧ (Get c' "k").2 = some ⟨20⟩ :=
  ⟨by decide, by decide,
    { maxBytes := 10, nBytes := -78, ll := [⟨1, ⟨"k", ⟨20⟩⟩⟩, ⟨0, ⟨"a", ⟨-100⟩⟩⟩],
      cache := [("k", 1), ("a", 0)], OnEvicted := false, nextId := 2, calls := [] },
    by decide, by decide, by decide, by decide⟩

/-- C18, amended (self-eviction of an oversized entry): on a reachable store with a budget
`maxBytes > 0` in which no value has a negative `Len()` and whose entry sizes, the new entry
included, sum to less than 2^63, for a key (new or present) and a value with
`len(key) + value.Len() > maxBytes`, `Add(key, value)` returns, and it returns exactly when the
loop body may run once for each entry the list holds after the insert or update: every entry
is evicted, the one of `key` included. Afterwards `Len()` is 0, the usage is 0, the index is
empty and `Get(key)` returns `(nil, false)`. -/
theorem self_eviction (maxBytes : Int) (onEvicted : Bool) (c : Cache V) (key : String)
    (value : V) (hc : Reachable maxBytes onEvicted c) (hpos : 0 < maxBytes)
    (hbig : maxBytes < (key.utf8ByteSize : Int) + Value.Len value)
    (hnn : ∀ e ∈ c.ll, 0 ≤ Value.Len e.Value.value)
    (hlt : (c.ll.map (fun e => (e.Value.key.utf8ByteSize : Int) + Value.Len e.Value.value)).sum +
      ((key.utf8ByteSize : Int) + Value.Len value) < 9223372036854775808) :
    ∃ c' : Cache V,
      (∀ fuel, Add fuel c key value = some c' ↔ (addEntry c key value).ll.length ≤ fuel) ∧
      (∀ fuel, (addEntry c key value).ll.length ≤ fuel ∨ Add fuel c key value = none) ∧
      key ∈ keys (addEntry c key value).ll ∧
      Len c' = 0 ∧ c'.nBytes = 0 ∧ c'.cache = [] ∧ Get c' key = (c', none) := by
  have hi := hc.inv
  have hm := hc.maxBytes_eq.1
  have hi0 := hi.addEntry key value
  obtain ⟨c', h1, h2, -, -, -, -, h7⟩ := Add_total hi (by omega) key value
  have hnil := (Add_oversized hi (by rw [hm]; exact hpos) (by rw [hm]; exact hbig) hnn hlt
    (h1 _ (le_refl _))).1
  obtain ⟨c1, g1, -, -, -, -, -⟩ :=
    evictLoop_spec hi0 (by rw [addEntry_maxBytes, hm]; omega)
  have hc1 : c1 = c' := (h2 _ c1 (g1 _ (le_refl _)))
  subst hc1
  have hneed : ∀ fuel c'', Add fuel c key value = some c'' →
      (addEntry c key value).ll.length ≤ fuel := by
    intro fuel c'' h
    have hcc := h2 fuel c'' h
    subst hcc
    have := evictLoop_needs hi0 h
    rw [hnil] at this
    simpa using this
  refine ⟨c1, ?_, ?_, ?_, ?_, ?_, ?_, ?_⟩
  · intro fuel
    constructor
    · exact hneed fuel c1
    · intro hf
      apply g1
      omega
  · intro fuel
    cases h : Add fuel c key value with
    | none => exact Or.inr rfl
    | some c'' => exact Or.inl (hneed fuel c'' h)
  · rw [keys_addEntry hi]; exact List.mem_cons_self _ _
  · simp [Len, hnil]
  · rw [h7.usage_eq, hnil, usage_nil, int64_zero]
  · exact index_nil_of_list_nil h7 hnil
  · apply Get_miss
    apply h7.get_none_of_not_mem
    simp [hnil, keys]

/-- Witness of C18 (amended): a nine-byte value for the key "cd" on the store of budget 10
that holds "cd" and "ab". -/
theorem self_eviction_witness :
    ∃ c' : Cache ByteView,
      (∀ fuel, Add fuel store2 "cd" v9 = some c' ↔ (addEntry store2 "cd" v9).ll.length ≤ fuel) ∧
      (∀ fuel, (addEntry store2 "cd" v9).ll.length ≤ fuel ∨ Add fuel store2 "cd" v9 = none) ∧
      "cd" ∈ keys (addEntry store2 "cd" v9).ll ∧
      Len c' = 0 ∧ c'.nBytes = 0 ∧ c'.cache = [] ∧ Get c' "cd" = (c', none) :=
  self_eviction 10 true store2 "cd" v9 store2_reachable (by decide) (by decide) (by decide)
    (by decide)

/-- C19 (index/list consistency): in every state reachable from `New` by `Add`, `Get` and
`RemoveOldest`, the keys of the recency list are pairwise distinct, and so are its elements;
the index binds a key to an element exactly when that element is in the list and holds the
key; the index has one binding for each key, and `Len()` is the number of keys of the index. -/
theorem index_list_consistent (maxBytes : Int) (onEvicted : Bool) (c : Cache V)
    (hc : Reachable maxBytes onEvicted c) :
    (keys c.ll).Nodup ∧ (ids c.ll).Nodup ∧
      (∀ k p, mapGet c.cache k = some p ↔ ∃ e ∈ c.ll, e.id = p ∧ e.Value.key = k) ∧
      (∀ k, k ∈ c.cache.map Prod.fst ↔ k ∈ keys c.ll) ∧
      (c.cache.map Prod.fst).Nodup ∧
      Len c = (c.cache.map Prod.fst).length := by
  have hi := hc.inv
  refine ⟨hi.keys_nodup, hi.ids_nodup, hi.index_iff, ?_, hi.index_nodup, ?_⟩
  · intro k
    exact hi.index_keys_perm.mem_iff
  · have := hi.index_keys_perm.length_eq
    rw [this]
    simp [Len, keys]

/-- Witness of C19: the store after three `Add`s, one of which evicted. -/
theorem index_list_consistent_witness :
    (keys store3.ll).Nodup ∧ (ids store3.ll).Nodup ∧
      (∀ k p, mapGet store3.cache k = some p ↔ ∃ e ∈ store3.ll, e.id = p ∧ e.Value.key = k) ∧
      (∀ k, k ∈ store3.cache.map Prod.fst ↔ k ∈ keys store3.ll) ∧
      (store3.cache.map Prod.fst).Nodup ∧
      Len store3 = (store3.cache.map Prod.fst).length :=
  index_list_consistent 10 true store3 store3_reachable

/-- C20, counterexample: on a new store of budget -1, `Add("a", v)` with `v.Len() = -5`
returns without running the loop body: the usage is -4 and the guard `-1 < -4` fails. -/
theorem eviction_loop_counterexample :
    ∃ c : Cache IntValue, Add 0 (New (-1) false) "a" ⟨-5⟩ = some c ∧ c.maxBytes < 0 ∧
      c.nBytes = -4 ∧ Len c = 1 :=
  ⟨{ maxBytes := -1, nBytes := -4, ll := [⟨0, ⟨"a", ⟨-5⟩⟩⟩], cache := [("a", 0)],
     OnEvicted := false, nextId := 1, calls := [] }, by decide, by decide, by decide, by decide⟩

/-- C20, amended (termination of the eviction loop): on a reachable store with
`maxBytes ≥ 0` an `Add` returns as soon as the loop body may run once for each entry the list
holds when the loop starts. On a reachable store with `maxBytes < 0` in which no value has a
negative `Len()`, an `Add` of a value without negative `Len()`, the sizes with the new entry
included summing to less than 2^63, does not return, whatever the fuel: on an empty store with
usage 0 the guard `maxBytes != 0 && maxBytes < nBytes` holds and `RemoveOldest` leaves the
store unchanged. -/
theorem eviction_loop_termination (maxBytes : Int) (onEvicted : Bool) (c : Cache V)
    (hc : Reachable maxBytes onEvicted c) :
    (0 ≤ maxBytes → ∀ (key : String) (value : V), ∃ c' : Cache V,
      ∀ fuel, (addEntry c key value).ll.length ≤ fuel → Add fuel c key value = some c') ∧
    (maxBytes < 0 →
      (∀ (key : String) (value : V), (∀ e ∈ c.ll, 0 ≤ Value.Len e.Value.value) →
        0 ≤ Value.Len value →
        (c.ll.map (fun e => (e.Value.key.utf8ByteSize : Int) + Value.Len e.Value.value)).sum +
          ((key.utf8ByteSize : Int) + Value.Len value) < 9223372036854775808 →
        ∀ fuel, Add fuel c key value = none) ∧
      (∀ s : Cache V, s.maxBytes = maxBytes → s.ll = [] → s.nBytes = 0 →
        (s.maxBytes ≠ 0 ∧ s.maxBytes < s.nBytes) ∧ RemoveOldest s = s)) := by
  have hi := hc.inv
  have hm := hc.maxBytes_eq.1
  constructor
  · intro h0 key value
    obtain ⟨c', h1, -, -, -, -, -⟩ :=
      evictLoop_spec (hi.addEntry key value) (by rw [addEntry_maxBytes, hm]; exact h0)
    exact ⟨c', fun fuel hf => h1 fuel (by omega)⟩
  · intro hneg
    constructor
    · intro key value hnn hv hlt fuel
      exact Add_negative hi (by rw [hm]; exact hneg) key value hnn hv hlt fuel
    · intro s hs hl hn
      refine ⟨?_, RemoveOldest_nil hl⟩
      rw [hs, hn]
      constructor <;> omega

/-- Witness of C20 (amended): an `Add` on the store of budget 10 that holds two entries, and an
`Add` of a three-byte value on a new store of budget -1. -/
theorem eviction_loop_termination_witness :
    (∃ c' : Cache ByteView,
      ∀ fuel, (addEntry store2 "ef" v3).ll.length ≤ fuel → Add fuel store2 "ef" v3 = some c') ∧
    (∀ fuel, Add fuel (New (-1) false) "ef" v3 = none) :=
  ⟨(eviction_loop_termination 10 true store2 store2_reachable).1 (by decide) "ef" v3,
    ((eviction_loop_termination (-1) false (New (-1) false) Reachable.new).2 (by decide)).1
      "ef" v3 (by decide) (by decide) (by decide)⟩

end Claims9

end LruCache
namespace myGoCache

section Wrapper

open LruCache

theorem Get_none_state {V : Type} (c : Cache V) (k : String) (h : (LruCache.Get c k).2 = none) :
    (LruCache.Get c k).1 = c := by
  unfold LruCache.Get at h ⊢
  split
  · split
    · rename_i h1 _ _ h2
      simp [h1, h2] at h
    · rfl
  · rfl

theorem cache.get_eq (c : cache) (key : String) :
    c.get key =
      match c.lru with
      | none => (c, ⟨[]⟩, false)
      | some l => ({ c with lru := some (LruCache.Get l key).1 },
          getResult (LruCache.Get l key).2) := by
  unfold cache.get
  cases c.lru with
  | none => rfl
  | some l =>
    simp only
    cases h : LruCache.Get l key with
    | mk l' r =>
      cases r with
      | none => rfl
      | some v => rfl

theorem cache.get_nil (cacheBytes : Int) (key : String) :
    cache.get ⟨none, cacheBytes⟩ key = (⟨none, cacheBytes⟩, ⟨[]⟩, false) := rfl

/-- A `get` that misses leaves the wrapper as it was and returns the zero `ByteView`. -/
theorem cache.get_of_miss {c : cache} {key : String} (h : (c.get key).2.2 = false) :
    c.get key = (c, ⟨[]⟩, false) := by
  rw [cache.get_eq] at h ⊢
  obtain ⟨lru, cacheBytes⟩ := c
  cases lru with
  | none => rfl
  | some l =>
    simp only at h ⊢
    cases hr : (LruCache.Get l key).2 with
    | some v => rw [hr] at h; simp [getResult] at h
    | none =>
      rw [Get_none_state l key hr]
      rfl

theorem cache.add_eq (fuel : Nat) (c : cache) (key : String) (value : ByteView) :
    c.add fuel key value =
      (LruCache.Add fuel c.store key value).map (fun l => { c with lru := some l }) := by
  unfold cache.add cache.store
  cases c.lru with
  | none => simp only; cases LruCache.Add fuel (New c.cacheBytes false) key value <;> rfl
  | some l => simp only; cases LruCache.Add fuel l key value <;> rfl

theorem cache.get_store (c : cache) (key : String) :
    (c.get key).1.store = (LruCache.Get c.store key).1 ∧
      (c.get key).2 = getResult (LruCache.Get c.store key).2 ∧
      (c.get key).1.cacheBytes = c.cacheBytes := by
  rw [cache.get_eq]
  obtain ⟨lru, cacheBytes⟩ := c
  cases lru with
  | none => exact ⟨rfl, rfl, rfl⟩
  | some l => exact ⟨rfl, rfl, rfl⟩

end Wrapper

section Groups

variable {W : Type}

theorem Group.Get_empty (fuel : Nat) (g : Group W) (w : W) :
    Group.Get fuel g "" w = some ((⟨[]⟩, some ⟨"key is required"⟩), g, w) := by
  simp [Group.Get]

theorem Group.Get_of_hit (fuel : Nat) (g : Group W) {key : String} (w : W) (hk : key ≠ "")
    (h : (g.mainCache.get key).2.2 = true) :
    Group.Get fuel g key w =
      some (((g.mainCache.get key).2.1, none),
        { g with mainCache := (g.mainCache.get key).1 }, w) := by
  unfold Group.Get
  rw [if_neg hk]
  cases hg : g.mainCache.get key with
  | mk mc r =>
    obtain ⟨v, ok⟩ := r
    rw [hg] at h
    simp only at h
    subst h
    rfl

theorem Group.Get_of_miss (fuel : Nat) (g : Group W) {key : String} (w : W) (hk : key ≠ "")
    (h : (g.mainCache.get key).2.2 = false) :
    Group.Get fuel g key w = Group.getLocally fuel g key w := by
  unfold Group.Get
  rw [if_neg hk, cache.get_of_miss h]
  rfl

theorem Group.getLocally_error (fuel : Nat) (g : Group W) (key : String) (w : W) {e : Error}
    (h : (g.getter.Get key w).1.2 = some e) :
    Group.getLocally fuel g key w =
      some ((⟨[]⟩, some e), { g with loads := g.loads ++ [key] }, (g.getter.Get key w).2) := by
  unfold Group.getLocally
  simp only [h]

theorem Group.getLocally_ok (fuel : Nat) (g : Group W) (key : String) (w : W)
    (h : (g.getter.Get key w).1.2 = none) :
    Group.getLocally fuel g key w =
      (g.mainCache.add fuel key ⟨cloneBytes (g.getter.Get key w).1.1⟩).map (fun mc =>
        ((⟨cloneBytes (g.getter.Get key w).1.1⟩, none),
          { g with mainCache := mc, loads := g.loads ++ [key] }, (g.getter.Get key w).2)) := by
  unfold Group.getLocally Group.populateCache
  simp only [h]
  cases g.mainCache.add fuel key ⟨cloneBytes (g.getter.Get key w).1.1⟩ <;> rfl

/-- A group reached from `NewGroup` keeps its name, loader and budget, and the store its cache
stands for is a state of `New(cacheBytes, nil)`. -/
theorem GroupReachable.wf {name : String} {cacheBytes : Int} {getter : Getter W} {g : Group W}
    (h : GroupReachable name cacheBytes getter g) :
    g.name = name ∧ g.getter = getter ∧ g.mainCache.cacheBytes = cacheBytes ∧
      LruCache.Reachable cacheBytes false g.mainCache.store := by
  induction h with
  | new => exact ⟨rfl, rfl, rfl, LruCache.Reachable.new⟩
  | @get g g' fuel key w w' res _ hget ih =>
    obtain ⟨h1, h2, h3, h4⟩ := ih
    by_cases hk : key = ""
    · subst hk
      rw [Group.Get_empty] at hget
      cases hget
      exact ⟨h1, h2, h3, h4⟩
    · cases hhit : (g.mainCache.get key).2.2 with
      | true =>
        rw [Group.Get_of_hit fuel g w hk hhit] at hget
        cases hget
        have hs := cache.get_store g.mainCache key
        refine ⟨h1, h2, hs.2.2.trans h3, ?_⟩
        simp only
        rw [hs.1]
        exact LruCache.Reachable.get key h4
      | false =>
        rw [Group.Get_of_miss fuel g w hk hhit] at hget
        cases herr : (g.getter.Get key w).1.2 with
        | some e =>
          rw [Group.getLocally_error fuel g key w herr] at hget
          cases hget
          exact ⟨h1, h2, h3, h4⟩
        | none =>
          rw [Group.getLocally_ok fuel g key w herr, cache.add_eq] at hget
          cases hadd : LruCache.Add fuel g.mainCache.store key
              ⟨cloneBytes (g.getter.Get key w).1.1⟩ with
          | none => rw [hadd] at hget; simp at hget
          | some l =>
            rw [hadd] at hget
            simp only [Option.map_some', Option.some.injEq, Prod.mk.injEq] at hget
            obtain ⟨-, hg', -⟩ := hget
            subst hg'
            exact ⟨h1, h2, h3, LruCache.Reachable.add fuel key _ h4 hadd⟩

end Groups

end myGoCache
namespace LruCache

section Refill

variable {V : Type} [Value V]

/-- After a hit, the same `Get` hits again, returns the same value and changes nothing. -/
theorem Get_idem {c : Cache V} (hc : Inv c) {k : String} {v : V} (h : (Get c k).2 = some v) :
    Get (Get c k).1 k = ((Get c k).1, some v) := by
  cases hg : mapGet c.cache k with
  | none => rw [Get_miss hg] at h; exact Option.noConfusion h
  | some p =>
    obtain ⟨l1, e, l2, hl, -, rfl⟩ := hc.split hg
    have hi := hc.Get e.Value.key
    rw [Get_hit hc hl] at h hi ⊢
    simp only at h hi ⊢
    have hv : e.Value.value = v := Option.some.inj h
    have := @Get_front V _ _ hi e (l1 ++ l2) rfl
    rw [this, hv]

/-- After an `Add` whose entry is within the budget (its size as an `int64` is at most the
budget, or the budget is 0), `Get` hits with the value added and changes nothing. -/
theorem Add_then_Get {c c' : Cache V} {fuel : Nat} {k : String} {v : V} (hc : Inv c)
    (h : Add fuel c k v = some c')
    (hfit : c.maxBytes = 0 ∨ int64 ((k.utf8ByteSize : Int) + Value.Len v) ≤ c.maxBytes) :
    Get c' k = (c', some v) := by
  obtain ⟨h2, -, -, h5, h6⟩ := evictLoop_result (hc.addEntry k v) h
  rw [addEntry_maxBytes] at h5
  obtain ⟨e0, rest, hl, he0⟩ := addEntry_head hc k v
  cases hc' : c'.ll with
  | nil =>
    exfalso
    have := h5 1 (by rw [hc']; simp) (by rw [hl]; simp)
    rw [hl] at this
    simp only [List.take_succ_cons, List.take_zero, usage_cons, usage_nil, he0, entry.size,
      add_zero] at this
    omega
  | cons a l' =>
    rw [hl, hc'] at h2
    have ha : a = e0 := (List.cons_prefix_cons.1 h2).1
    have := Get_front h6 hc'
    rw [ha, he0] at this
    exact this

theorem int64_le_self {x : Int} (h : 0 ≤ x) : int64 x ≤ x := by
  unfold int64; omega

end Refill

end LruCache

namespace myGoCache

section Wrapper2

theorem cache.get_fixed {c : cache} {l : LruCache.Cache ByteView} {key : String} {v : ByteView}
    (hl : c.lru = some l) (h : LruCache.Get l key = (l, some v)) :
    c.get key = (c, v, true) := by
  rw [cache.get_eq]
  obtain ⟨lru, cacheBytes⟩ := c
  simp only at hl
  subst hl
  simp only [h, getResult]

theorem getResult_true {r : Option ByteView} (h : (getResult r).2 = true) :
    r = some (getResult r).1 := by
  cases r with
  | none => simp [getResult] at h
  | some v => rfl

/-- The wrapper against the store it stands for, over a sequence of calls: the same results and
the same final store. -/
theorem cache.run_store (fuel : Nat) (ops : List WOp) (c : cache) :
    (cache.run fuel c ops).map (fun r => (r.1.store, r.2)) =
      (storeRun fuel c.store ops).map (fun r => (r.1, r.2.map getResult)) := by
  induction ops generalizing c with
  | nil => rfl
  | cons op ops ih =>
    cases op with
    | add key value =>
      simp only [cache.run, storeRun, cache.add_eq]
      cases LruCache.Add fuel c.store key value with
      | none => rfl
      | some l =>
        have := ih { c with lru := some l }
        simpa [cache.store] using this
    | get key =>
      have hs := cache.get_store c key
      have := ih (c.get key).1
      rw [hs.1] at this
      simp only [cache.run, storeRun]
      cases h1 : cache.run fuel (c.get key).1 ops with
      | none =>
        rw [h1] at this
        cases h2 : storeRun fuel (LruCache.Get c.store key).1 ops with
        | none => rfl
        | some r => rw [h2] at this; simp at this
      | some r =>
        rw [h1] at this
        cases h2 : storeRun fuel (LruCache.Get c.store key).1 ops with
        | none => rw [h2] at this; simp at this
        | some r2 =>
          rw [h2] at this
          simp only [Option.map_some', Option.some.injEq, Prod.mk.injEq] at this ⊢
          exact ⟨this.1, by rw [hs.2.1, this.2]; rfl⟩

end Wrapper2

end myGoCache
namespace myGoCache

section Claims10

variable {W : Type}

/-- C11 (empty-key rejection): for every group in every state, whatever the fuel, `Get("")`
returns the zero `ByteView` and the error "key is required"; the group is unchanged (its cache,
constructed or not, with its recency order and usage, and the log of loader calls) and so is
the outside world: the loader is not invoked. -/
theorem empty_key_rejected (fuel : Nat) (g : Group W) (w : W) :
    Group.Get fuel g "" w = some ((⟨[]⟩, some ⟨"key is required"⟩), g, w) :=
  Group.Get_empty fuel g w

/-- C12, counterexample: the group "scores" with a budget of 4 bytes. `Get("Tom")` returns the
bytes of "630" after one loader call; the entry of 6 bytes is evicted at once, and the second
`Get("Tom")` invokes the loader again. -/
theorem hit_before_load_counterexample :
    (Group.Get 1 (scores 4) "Tom" ()).map (fun r => (r.1, r.2.1.loads)) =
        some ((⟨[54, 51, 48]⟩, none), ["Tom"]) ∧
      ((Group.Get 1 (scores 4) "Tom" ()).bind (fun r => Group.Get 1 r.2.1 "Tom" ())).map
          (fun r => (r.1, r.2.1.loads)) =
        some ((⟨[54, 51, 48]⟩, none), ["Tom", "Tom"]) :=
  ⟨by decide, by decide⟩

/-- C12, amended: for a group reached from `NewGroup`, a non-empty key and any loader, if
`Get(key)` returns a value `v` without error and the entry fits the budget (the budget is 0, or
`len(key) + v.Len()` is at most the budget), then a second `Get(key)` right after it returns
`v` again and leaves the group and the world as they are: the loader is not invoked. -/
theorem hit_before_load (name : String) (cacheBytes : Int) (getter : Getter W) (g g1 : Group W)
    (key : String) (w w1 : W) (fuel : Nat) (v : ByteView)
    (hg : GroupReachable name cacheBytes getter g) (hk : key ≠ "")
    (h1 : Group.Get fuel g key w = some ((v, none), g1, w1))
    (hfit : cacheBytes = 0 ∨ (key.utf8ByteSize : Int) + (v.Len : Int) ≤ cacheBytes) :
    ∀ (fuel2 : Nat) (w2 : W), Group.Get fuel2 g1 key w2 = some ((v, none), g1, w2) := by
  obtain ⟨-, -, hb, hr⟩ := hg.wf
  have hi := hr.inv
  have hmb := hr.maxBytes_eq.1
  have key_fact : ∃ l, g1.mainCache.lru = some l ∧ LruCache.Get l key = (l, some v) := by
    cases hhit : (g.mainCache.get key).2.2 with
    | true =>
      rw [Group.Get_of_hit fuel g w hk hhit] at h1
      simp only [Option.some.injEq, Prod.mk.injEq, and_true] at h1
      obtain ⟨hv, hg1, -⟩ := h1
      have hs := cache.get_store g.mainCache key
      have hsome : (LruCache.Get g.mainCache.store key).2 = some v := by
        have := getResult_true (by rw [← hs.2.1]; exact hhit)
        rw [this, ← hs.2.1, hv]
      have hidem := LruCache.Get_idem hi hsome
      refine ⟨(LruCache.Get g.mainCache.store key).1, ?_, hidem⟩
      rw [← hg1]
      simp only
      rw [cache.get_eq]
      cases hl : g.mainCache.lru with
      | none =>
        rw [cache.get_eq, hl] at hhit
        simp at hhit
      | some l =>
        simp only [cache.store, hl]
    | false =>
      rw [Group.Get_of_miss fuel g w hk hhit] at h1
      cases herr : (g.getter.Get key w).1.2 with
      | some e =>
        rw [Group.getLocally_error fuel g key w herr] at h1
        simp at h1
      | none =>
        rw [Group.getLocally_ok fuel g key w herr, cache.add_eq] at h1
        cases hadd : LruCache.Add fuel g.mainCache.store key
            ⟨cloneBytes (g.getter.Get key w).1.1⟩ with
        | none => rw [hadd] at h1; simp at h1
        | some l =>
          rw [hadd] at h1
          simp only [Option.map_some', Option.some.injEq, Prod.mk.injEq, and_true] at h1
          obtain ⟨hv, hg1, -⟩ := h1
          refine ⟨l, by rw [← hg1], ?_⟩
          rw [← hv]
          apply LruCache.Add_then_Get hi hadd
          rw [hmb, hv]
          have hsz : (0 : Int) ≤ (key.utf8ByteSize : Int) + LruCache.Value.Len v := by
            have : (0 : Int) ≤ LruCache.Value.Len v := Int.ofNat_nonneg v.Len
            omega
          have hle := LruCache.int64_le_self hsz
          have hfit2 : cacheBytes = 0 ∨
              (key.utf8ByteSize : Int) + LruCache.Value.Len v ≤ cacheBytes := hfit
          omega
  obtain ⟨l, hl, hget⟩ := key_fact
  intro fuel2 w2
  have hfix := cache.get_fixed hl hget
  have hhit : (g1.mainCache.get key).2.2 = true := by rw [hfix]
  rw [Group.Get_of_hit fuel2 g1 w2 hk hhit, hfix]

/-- Witness of C12 (amended): the group "scores" of `main.go` with its budget of 2048 bytes;
the first `Get("Tom")` fills the cache, the second returns the same bytes from it. -/
theorem hit_before_load_witness :
    Group.Get 0 (scores 2048) "Tom" () = some ((⟨[54, 51, 48]⟩, none), scoresTom, ()) ∧
      Group.Get 0 scoresTom "Tom" () = some ((⟨[54, 51, 48]⟩, none), scoresTom, ()) :=
  ⟨rfl, hit_before_load "scores" 2048 dbGetter (scores 2048) scoresTom "Tom" () () 0
    ⟨[54, 51, 48]⟩ GroupReachable.new (by decide) rfl (by decide) 0 ()⟩

/-- C13 (loader failure): for a non-empty key that misses the cache, if the loader returns the
error `e`, then `Get(key)` returns, whatever the fuel, the zero `ByteView` and `e` itself; the
loader has been called once, with `key`, and the cache of the group is what it was: nothing
is stored, a store that was nil is still nil, usage and recency order are unchanged. -/
theorem loader_failure (fuel : Nat) (g : Group W) (key : String) (w : W) (e : Error)
    (hk : key ≠ "") (hmiss : (g.mainCache.get key).2.2 = false)
    (herr : (g.getter.Get key w).1.2 = some e) :
    Group.Get fuel g key w =
      some ((⟨[]⟩, some e), { g with loads := g.loads ++ [key] }, (g.getter.Get key w).2) := by
  rw [Group.Get_of_miss fuel g w hk hmiss, Group.getLocally_error fuel g key w herr]

/-- Witness of C13: the key "Unknown" on the group "scores" of `main.go`. -/
theorem loader_failure_witness :
    Group.Get 0 (scores 2048) "Unknown" () =
      some ((⟨[]⟩, some ⟨"Unknown not exist"⟩),
        { scores 2048 with loads := (scores 2048).loads ++ ["Unknown"] },
        ((scores 2048).getter.Get "Unknown" ()).2) :=
  loader_failure 0 (scores 2048) "Unknown" () ⟨"Unknown not exist"⟩ (by decide) (by decide)
    (by decide)

/-- C14, counterexample: the group "scores" with a budget of -1. The key "Tom" misses the cache
and the loader returns the bytes of "630" without error, yet `Get("Tom")` returns for no amount
of fuel: the loop of `Add` does not stop. -/
theorem miss_fill_counterexample :
    ((scores (-1)).mainCache.get "Tom").2.2 = false ∧
      ((scores (-1)).getter.Get "Tom" ()).1 = ([54, 51, 48], none) ∧
      ∀ fuel, Group.Get fuel (scores (-1)) "Tom" () = none := by
  refine ⟨by decide, by decide, ?_⟩
  intro fuel
  have hmiss : ((scores (-1)).mainCache.get "Tom").2.2 = false := by decide
  have hok : ((scores (-1)).getter.Get "Tom" ()).1.2 = none := by decide
  rw [Group.Get_of_miss fuel _ () (by decide) hmiss, Group.getLocally_ok fuel _ "Tom" () hok,
    cache.add_eq]
  have : LruCache.Add fuel (scores (-1)).mainCache.store "Tom"
      ⟨cloneBytes ((scores (-1)).getter.Get "Tom" ()).1.1⟩ = none :=
    LruCache.Add_negative (LruCache.Inv_New (-1) false) (by decide) _ _ (by decide)
      (by decide) (by decide) fuel
  rw [this]
  rfl

/-- C14, amended: for a group reached from `NewGroup` with a budget that is not negative and a
non-empty key. If the key misses the cache and the loader returns the bytes `b` without error,
then `Get(key)` returns, for any fuel of at least the number of entries plus one, a value
whose bytes are `b`; the loader has been called once, with `key`, and the cache is what the
wrapper's `add(key, value of b)` makes of it. If the key hits, `Get(key)` returns the stored
value and the loader is not called. -/
theorem miss_fill (name : String) (cacheBytes : Int) (getter : Getter W) (g : Group W)
    (key : String) (w : W) (hg : GroupReachable name cacheBytes getter g)
    (hb : 0 ≤ cacheBytes) (hk : key ≠ "") :
    (∀ b, (g.mainCache.get key).2.2 = false → (g.getter.Get key w).1 = (b, none) →
      ∃ mc, ∀ fuel, LruCache.Len g.mainCache.store + 1 ≤ fuel →
        g.mainCache.add fuel key ⟨b⟩ = some mc ∧
        Group.Get fuel g key w =
          some ((⟨b⟩, none), { g with mainCache := mc, loads := g.loads ++ [key] },
            (g.getter.Get key w).2)) ∧
    ((g.mainCache.get key).2.2 = true →
      (LruCache.Get g.mainCache.store key).2 = some (g.mainCache.get key).2.1 ∧
      ∀ fuel, Group.Get fuel g key w =
        some (((g.mainCache.get key).2.1, none),
          { g with mainCache := (g.mainCache.get key).1 }, w)) := by
  obtain ⟨-, -, hcb, hr⟩ := hg.wf
  have hi := hr.inv
  have hmb := hr.maxBytes_eq.1
  constructor
  · intro b hmiss hload
    have hok : (g.getter.Get key w).1.2 = none := by rw [hload]
    have hbytes : (g.getter.Get key w).1.1 = b := by rw [hload]
    obtain ⟨l, h1, -⟩ := LruCache.Add_total hi (by rw [hmb]; exact hb) key (⟨b⟩ : ByteView)
    refine ⟨{ g.mainCache with lru := some l }, ?_⟩
    intro fuel hf
    have hadd : g.mainCache.add fuel key ⟨b⟩ = some { g.mainCache with lru := some l } := by
      rw [cache.add_eq, h1 fuel hf]
      rfl
    refine ⟨hadd, ?_⟩
    rw [Group.Get_of_miss fuel g w hk hmiss, Group.getLocally_ok fuel g key w hok, hbytes]
    simp only [cloneBytes, hadd, Option.map_some']
  · intro hhit
    have hs := cache.get_store g.mainCache key
    refine ⟨?_, fun fuel => Group.Get_of_hit fuel g w hk hhit⟩
    have := getResult_true (by rw [← hs.2.1]; exact hhit)
    rw [this, ← hs.2.1]

/-- Witness of C14 (amended): the key "Tom" on the group "scores" of `main.go`. -/
theorem miss_fill_witness :
    ∃ mc, ∀ fuel, LruCache.Len (scores 2048).mainCache.store + 1 ≤ fuel →
      (scores 2048).mainCache.add fuel "Tom" ⟨[54, 51, 48]⟩ = some mc ∧
      Group.Get fuel (scores 2048) "Tom" () =
        some ((⟨[54, 51, 48]⟩, none),
          { scores 2048 with mainCache := mc, loads := (scores 2048).loads ++ ["Tom"] },
          ((scores 2048).getter.Get "Tom" ()).2) :=
  (miss_fill "scores" 2048 dbGetter (scores 2048) "Tom" () GroupReachable.new (by decide)
    (by decide)).1 [54, 51, 48] (by decide) (by decide)

/-- C15 (wrapper equivalence with lazy construction): for every budget and every sequence of
`add` and `get` calls on a new wrapper, the results of the `get`s and the store the wrapper ends
with are those of the same sequence of `Add` and `Get` on the store `New(cacheBytes, nil)`,
a call returning on one side exactly when it returns on the other. A `get` on a wrapper whose
store is nil returns the zero value and `false` and leaves the store nil; the first `add`
constructs the store with the budget `cacheBytes`. -/
theorem wrapper_equivalence (cacheBytes : Int) (fuel : Nat) (ops : List WOp) :
    (cache.run fuel ⟨none, cacheBytes⟩ ops).map (fun r => (r.1.store, r.2)) =
        (storeRun fuel (LruCache.New cacheBytes false) ops).map
          (fun r => (r.1, r.2.map getResult)) ∧
      (∀ key, cache.get ⟨none, cacheBytes⟩ key = (⟨none, cacheBytes⟩, ⟨[]⟩, false)) ∧
      (∀ key value, cache.add fuel ⟨none, cacheBytes⟩ key value =
        (LruCache.Add fuel (LruCache.New cacheBytes false) key value).map
          (fun l => ⟨some l, cacheBytes⟩)) ∧
      (LruCache.New cacheBytes false : LruCache.Cache ByteView).maxBytes = cacheBytes ∧
      (∀ key value c', cache.add fuel ⟨none, cacheBytes⟩ key value = some c' →
        ∃ l, c'.lru = some l ∧ l.maxBytes = cacheBytes ∧ c'.cacheBytes = cacheBytes) := by
  refine ⟨cache.run_store fuel ops ⟨none, cacheBytes⟩, fun key => rfl, ?_, rfl, ?_⟩
  · intro key value
    rw [cache.add_eq]
    rfl
  · intro key value c' h
    rw [cache.add_eq] at h
    cases hadd : LruCache.Add fuel (cache.store ⟨none, cacheBytes⟩) key value with
    | none => rw [hadd] at h; simp at h
    | some l =>
      rw [hadd] at h
      simp only [Option.map_some', Option.some.injEq] at h
      subst h
      refine ⟨l, rfl, ?_, rfl⟩
      have := (LruCache.evictLoop_maxBytes hadd).1
      rw [LruCache.addEntry_maxBytes] at this
      exact this

end Claims10

end myGoCache
namespace myGoCache

section Claims11

variable {W : Type}

theorem NewGroup_nil (r : Registry W) (name : String) (cacheBytes : Int) :
    NewGroup r name cacheBytes none = (r, Except.error "nil Getter") := rfl

theorem GetGroup_NewGroup (r : Registry W) (name : String) (cacheBytes : Int) (gt : Getter W)
    (n : String) :
    GetGroup (NewGroup r name cacheBytes (some gt)).1 n =
      if n = name then some r.heap.length else GetGroup r n := by
  simp only [GetGroup, NewGroup, LruCache.mapGet_mapSet]

/-- A name that no successful `NewGroup` call carries keeps its registration. -/
theorem GetGroup_registryRun (calls : List (String × Int × Option (Getter W)))
    (r : Registry W) (name : String)
    (h : ∀ call ∈ calls, call.1 = name → call.2.2 = none) :
    GetGroup (registryRun r calls) name = GetGroup r name := by
  induction calls generalizing r with
  | nil => rfl
  | cons call calls ih =>
    obtain ⟨n, b, getter⟩ := call
    have h' : ∀ call ∈ calls, call.1 = name → call.2.2 = none :=
      fun call hc => h call (List.mem_cons_of_mem _ hc)
    simp only [registryRun]
    rw [ih _ h']
    cases getter with
    | none => rfl
    | some gt =>
      rw [GetGroup_NewGroup]
      have hn : ¬ name = n := by
        intro heq
        have := h (n, b, some gt) (List.mem_cons_self _ _) heq.symm
        simp at this
      rw [if_neg hn]

/-- C16 (NewGroup and the registry): `NewGroup(name, cacheBytes, getter)` panics with
"nil Getter" exactly when `getter` is nil, and then the registry is unchanged. Otherwise it
returns a new group with the given name and loader and a cache of budget `cacheBytes` whose
store is nil; after it `GetGroup(name)` returns that group, whatever was registered under the
name before, the registration of every other name is unchanged and so are the groups allocated
before. `GetGroup` returns nil on the empty registry, and after any sequence of `NewGroup`
calls it returns nil for a name that none of the calls that did not panic carries. -/
theorem NewGroup_registry :
    (∀ (r : Registry W) (name : String) (cacheBytes : Int) (getter : Option (Getter W)),
      ((NewGroup r name cacheBytes getter).2 = Except.error "nil Getter" ↔ getter = none) ∧
      ((∃ p, (NewGroup r name cacheBytes getter).2 = Except.ok p) ↔ getter ≠ none) ∧
      (getter = none → (NewGroup r name cacheBytes getter).1 = r)) ∧
    (∀ (r : Registry W) (name : String) (cacheBytes : Int) (gt : Getter W),
      (NewGroup r name cacheBytes (some gt)).2 = Except.ok r.heap.length ∧
      (NewGroup r name cacheBytes (some gt)).1.heap[r.heap.length]? =
        some { name := name, getter := gt, mainCache := { lru := none, cacheBytes := cacheBytes },
               loads := [] } ∧
      GetGroup (NewGroup r name cacheBytes (some gt)).1 name = some r.heap.length ∧
      (∀ n, n ≠ name → GetGroup (NewGroup r name cacheBytes (some gt)).1 n = GetGroup r n) ∧
      (∀ q, q < r.heap.length →
        (NewGroup r name cacheBytes (some gt)).1.heap[q]? = r.heap[q]?)) ∧
    (∀ name : String, GetGroup (Registry.empty : Registry W) name = none) ∧
    (∀ (calls : List (String × Int × Option (Getter W))) (name : String),
      (∀ call ∈ calls, call.1 = name → call.2.2 = none) →
      GetGroup (registryRun Registry.empty calls) name = none) := by
  refine ⟨?_, ?_, fun name => rfl, ?_⟩
  · intro r name cacheBytes getter
    cases getter with
    | none => simp [NewGroup]
    | some gt => simp [NewGroup]
  · intro r name cacheBytes gt
    refine ⟨rfl, ?_, ?_, ?_, ?_⟩
    · simp [NewGroup]
    · rw [GetGroup_NewGroup, if_pos rfl]
    · intro n hn
      rw [GetGroup_NewGroup, if_neg hn]
    · intro q hq
      simp only [NewGroup]
      exact List.getElem?_append_left hq
  · intro calls name h
    rw [GetGroup_registryRun calls Registry.empty name h]
    rfl

end Claims11

end myGoCache
